import Mathlib

set_option maxHeartbeats 2000000
set_option maxRecDepth 20000

/-!
Shallow embedding of the icalsplitter core (src/js/ical-parser.js and
src/js/ical-writer.js).  JavaScript strings are modelled as lists of UTF-16
code units (`List Nat`); all string operations used by the source
(`trim`, `indexOf`, `substring`, `split`, regular-expression replaces) are
translated to explicit list functions.  JavaScript Date values are modelled
by the record of constructor arguments plus a UTC flag; the timestamp and
year observations are computed with the standard civil-calendar algorithms,
parameterised by a fixed local-timezone offset `tz` in milliseconds, since
local-time Date behaviour depends on the host environment.
-/

abbrev JStr := List Nat

/-- Code units of a Lean string literal (all literals used are in the BMP,
where Lean characters and UTF-16 code units coincide). -/
def ofStr (s : String) : JStr := s.data.map Char.toNat

/-- The JavaScript whitespace set recognised by String.prototype.trim. -/
def isWS (c : Nat) : Bool :=
  c = 9 || c = 10 || c = 11 || c = 12 || c = 13 || c = 32 || c = 160 ||
  c = 0x1680 || (0x2000 ≤ c && c ≤ 0x200A) || c = 0x2028 || c = 0x2029 ||
  c = 0x202F || c = 0x205F || c = 0x3000 || c = 0xFEFF

/-- Model of String.prototype.trim. -/
def trim (l : JStr) : JStr :=
  ((l.dropWhile isWS).reverse.dropWhile isWS).reverse

/-- Model of the two sequential replaces in ical-parser.js line 16:
content.replace of CRLF by LF, then of CR by LF.  The single left-to-right
pass with a pending-CR state is equivalent because the first replace leaves
no CRLF pair; the state records a CR whose translation to LF has not yet
been emitted. -/
def normAux : Bool → JStr → JStr
  | pending, [] => if pending then [10] else []
  | pending, c :: rest =>
    if pending then
      if c = 10 then 10 :: normAux false rest
      else if c = 13 then 10 :: normAux true rest
      else 10 :: c :: normAux false rest
    else
      if c = 13 then normAux true rest
      else c :: normAux false rest

def normalizeNL (l : JStr) : JStr := normAux false l

/-- Model of the global replace of LF-followed-by-space-or-tab by the empty
string (ical-parser.js line 19): RFC 5545 unfolding, as a left-to-right pass
whose state records an LF not yet emitted (dropped when a space or tab
follows). -/
def unfoldAux : Bool → JStr → JStr
  | pending, [] => if pending then [10] else []
  | pending, c :: rest =>
    if pending then
      if c = 32 || c = 9 then unfoldAux false rest
      else if c = 10 then 10 :: unfoldAux true rest
      else 10 :: c :: unfoldAux false rest
    else
      if c = 10 then unfoldAux true rest
      else c :: unfoldAux false rest

def unfoldCont (l : JStr) : JStr := unfoldAux false l

/-- Model of String.prototype.split on the LF character. -/
def splitLF : JStr → List JStr
  | [] => [[]]
  | c :: rest =>
    if c = 10 then [] :: splitLF rest
    else
      match splitLF rest with
      | [] => [[c]]
      | s :: ss => (c :: s) :: ss

/-- The logical lines fed to the parser loop: normalized, unfolded, split on
LF, with lines that are blank after trimming discarded (ical-parser.js
line 21). -/
def logicalLines (x : JStr) : List JStr :=
  (splitLF (unfoldCont (normalizeNL x))).filter (fun l => trim l != [])

/-- Model of String.prototype.indexOf for a single code unit. -/
def idxOf (c : Nat) : JStr → Option Nat
  | [] => none
  | d :: rest => if d = c then some 0 else (idxOf c rest).map (fun i => i + 1)

/-- JavaScript object assignment: an existing key keeps its position and gets
the new value, a new key is appended. -/
def setKey {β : Type} (m : List (JStr × β)) (k : JStr) (v : β) : List (JStr × β) :=
  match m with
  | [] => [(k, v)]
  | (k1, v1) :: rest => if k1 = k then (k, v) :: rest else (k1, v1) :: setKey rest k v

/-- JavaScript object property lookup. -/
def lookupKey {β : Type} (m : List (JStr × β)) (k : JStr) : Option β :=
  match m with
  | [] => none
  | (k1, v1) :: rest => if k1 = k then some v1 else lookupKey rest k

structure PropE where
  value : JStr
  parameters : JStr
  raw : JStr
deriving DecidableEq

structure Event where
  properties : List (JStr × PropE)
  rawLines : List JStr
deriving DecidableEq

structure PropC where
  value : JStr
  raw : JStr
deriving DecidableEq

structure Calendar where
  headerLines : List JStr
  events : List Event
  properties : List (JStr × PropC)
deriving DecidableEq

def BEGINV : JStr := ofStr "BEGIN:VEVENT"

def ENDV : JStr := ofStr "END:VEVENT"

def BEGINCAL : JStr := ofStr "BEGIN:VCALENDAR"

def ENDCAL : JStr := ofStr "END:VCALENDAR"

def BEGINA : JStr := ofStr "BEGIN:VALARM"

def ENDA : JStr := ofStr "END:VALARM"

/-- Property-name extraction shared by parser steps 5 and 6: the name is the
part of the property part before the first semicolon, the parameter string is
the remainder from the semicolon on. -/
def parsePropName (pp : JStr) : JStr × JStr :=
  match idxOf 59 pp with
  | none => (pp, [])
  | some si => (pp.take si, pp.drop si)

structure PState where
  headerLines : List JStr
  events : List Event
  curProps : Option (List (JStr × PropE))
  curLines : List JStr
  inEvent : Bool
  foundFirstEvent : Bool
  inValarm : Bool
  calProps : List (JStr × PropC)

/-- The body of the inside-event branch of the parse loop: record the raw
line and, when it has a colon, update the property map of the current
event. -/
def stepBody (st : PState) (t : JStr) : PState :=
  let st1 := { st with curLines := st.curLines ++ [t] }
  match idxOf 58 t with
  | none => st1
  | some ci =>
    let np := parsePropName (t.take ci)
    let upd := fun (m : List (JStr × PropE)) =>
      setKey m np.1 { value := t.drop (ci + 1), parameters := np.2, raw := t }
    { st1 with curProps := st1.curProps.map upd }

/-- The body of the before-first-event branch of the parse loop: keep the
line as a header line and, when it has a colon and is not a BEGIN line,
record it as a calendar property. -/
def stepHeader (st : PState) (t : JStr) : PState :=
  let st1 := { st with headerLines := st.headerLines ++ [t] }
  match idxOf 58 t with
  | none => st1
  | some ci =>
    if (ofStr "BEGIN:").isPrefixOf t then st1
    else
      let np := parsePropName (t.take ci)
      { st1 with calProps := setKey st1.calProps np.1 { value := t.drop (ci + 1), raw := t } }

/-- One iteration of the parse loop (ical-parser.js lines 38-130), acting on
the trimmed line. -/
def stepCore (st : PState) (t : JStr) : PState :=
  if t = BEGINV then
    { st with foundFirstEvent := true, inEvent := true, curLines := [], curProps := some [] }
  else if t = ENDV then
    { st with
      events :=
        match st.curProps with
        | some ps => st.events ++ [{ properties := ps, rawLines := st.curLines }]
        | none => st.events,
      curProps := none, curLines := [], inEvent := false, inValarm := false }
  else if t = ENDCAL then st
  else if st.inEvent then
    if t = BEGINA then { st with inValarm := true }
    else if t = ENDA then { st with inValarm := false }
    else if st.inValarm then st
    else stepBody st t
  else if st.foundFirstEvent = false then stepHeader st t
  else st

def initState : PState :=
  { headerLines := [], events := [], curProps := none, curLines := [],
    inEvent := false, foundFirstEvent := false, inValarm := false, calProps := [] }

/-- ICalParser.parse. -/
def parse (x : JStr) : Calendar :=
  let fin := (logicalLines x).foldl (fun st line => stepCore st (trim line)) initState
  { headerLines := fin.headerLines, events := fin.events, properties := fin.calProps }

structure JSDate where
  year : Int
  month : Int
  day : Int
  hour : Int
  minute : Int
  second : Int
  isUTC : Bool
deriving DecidableEq

/-- Line terminators, which the dot of a JavaScript regular expression does
not match. -/
def isLineTerm (c : Nat) : Bool := c = 10 || c = 13 || c = 0x2028 || c = 0x2029

def lastIdxOf (c : Nat) (l : JStr) : Option Nat :=
  match idxOf c l.reverse with
  | none => none
  | some i => some (l.length - 1 - i)

/-- Model of dateStr.replace of the anchored greedy pattern dot-star-colon by
the empty string: if a colon occurs before any line terminator, everything up
to and including the last such colon is removed, otherwise the string is
unchanged. -/
def stripToColon (s : JStr) : JStr :=
  let pre := s.takeWhile (fun c => !(isLineTerm c))
  match lastIdxOf 58 pre with
  | none => s
  | some i => s.drop (i + 1)

def isDigit (c : Nat) : Bool := 48 ≤ c && c ≤ 57

def allDigits (l : JStr) : Bool := l.all isDigit

/-- parseInt on a string of ASCII digits. -/
def digitsVal (l : JStr) : Int := l.foldl (fun a c => a * 10 + (Int.ofNat c - 48)) 0

/-- ICalParser.parseICalDate.  The anchored regular expression admits exactly
three shapes, discriminated by length: 8 digits; 8 digits, a T and 6 digits;
the same followed by a Z.  Matched fields are converted with parseInt and
passed to the Date constructor (month decremented); a trailing Z selects the
UTC constructor. -/
def parseICalDate (dateStr : JStr) : Option JSDate :=
  if dateStr = [] then none
  else
    let c := stripToColon dateStr
    if c.length = 8 && allDigits c then
      some { year := digitsVal (c.take 4), month := digitsVal ((c.drop 4).take 2) - 1,
             day := digitsVal (c.drop 6), hour := 0, minute := 0, second := 0, isUTC := false }
    else if c.length = 15 && allDigits (c.take 8) && c.getD 8 0 = 84 && allDigits (c.drop 9) then
      some { year := digitsVal (c.take 4), month := digitsVal ((c.drop 4).take 2) - 1,
             day := digitsVal ((c.drop 6).take 2), hour := digitsVal ((c.drop 9).take 2),
             minute := digitsVal ((c.drop 11).take 2), second := digitsVal (c.drop 13),
             isUTC := false }
    else if c.length = 16 && allDigits (c.take 8) && c.getD 8 0 = 84 &&
            allDigits ((c.drop 9).take 6) && c.getD 15 0 = 90 then
      some { year := digitsVal (c.take 4), month := digitsVal ((c.drop 4).take 2) - 1,
             day := digitsVal ((c.drop 6).take 2), hour := digitsVal ((c.drop 9).take 2),
             minute := digitsVal ((c.drop 11).take 2), second := digitsVal ((c.drop 13).take 2),
             isUTC := true }
    else none

def DTSTARTkey : JStr := ofStr "DTSTART"

/-- ICalParser.getEventDate. -/
def getEventDate (ev : Event) : Option JSDate :=
  match lookupKey ev.properties DTSTARTkey with
  | none => none
  | some p => parseICalDate p.value

/-- Days from the epoch of the first day of a (normalized) civil month, by
the standard era-based algorithm with truncating division. -/
def daysFromCivilYM (y m : Int) : Int :=
  let y1 := if m ≤ 2 then y - 1 else y
  let era := Int.tdiv (if 0 ≤ y1 then y1 else y1 - 399) 400
  let yoe := y1 - era * 400
  let mp := if 2 < m then m - 3 else m + 9
  let doy := Int.tdiv (153 * mp + 2) 5
  let doe := yoe * 365 + Int.tdiv yoe 4 - Int.tdiv yoe 100 + doy
  era * 146097 + doe - 719468

/-- Milliseconds represented by the raw constructor fields of a Date, with
the ECMAScript normalization of out-of-range month, day and time fields. -/
def fieldsMs (dt : JSDate) : Int :=
  let ny := dt.year + Int.fdiv dt.month 12
  let nm := Int.emod dt.month 12 + 1
  let days := daysFromCivilYM ny nm + (dt.day - 1)
  days * 86400000 + dt.hour * 3600000 + dt.minute * 60000 + dt.second * 1000

/-- The epoch-millisecond value of a Date: UTC-constructed fields are taken
as is, locally constructed fields are shifted by the fixed local offset. -/
def dateMs (tz : Int) (dt : JSDate) : Int :=
  if dt.isUTC then fieldsMs dt else fieldsMs dt - tz

/-- The civil year containing a given day count from the epoch. -/
def civilYearFromDays (z0 : Int) : Int :=
  let z := z0 + 719468
  let era := Int.tdiv (if 0 ≤ z then z else z - 146096) 146097
  let doe := z - era * 146097
  let yoe := Int.tdiv (doe - Int.tdiv doe 1460 + Int.tdiv doe 36524 - Int.tdiv doe 146096) 365
  let y := yoe + era * 400
  let doy := doe - (365 * yoe + Int.tdiv yoe 4 - Int.tdiv yoe 100)
  let mp := Int.tdiv (5 * doy + 2) 153
  if 10 ≤ mp then y + 1 else y

/-- Date.prototype.getFullYear: the civil year of the instant in local time. -/
def getFullYear (tz : Int) (dt : JSDate) : Int :=
  civilYearFromDays (Int.fdiv (dateMs tz dt + tz) 86400000)

def MAX_LINE_LENGTH : Nat := 75

/-- ICalWriter.isContinuationByte: true when the unit before the cut
position is a UTF-16 high surrogate (and the position is interior). -/
def isContinuationByte (s : JStr) (pos : Nat) : Bool :=
  if pos = 0 || s.length ≤ pos then false
  else
    let c := s.getD (pos - 1) 0
    0xD800 ≤ c && c ≤ 0xDBFF

/-- The backward shift of the cut position: while the position is positive
and sits right after a high surrogate, move it back by one. -/
def adjustCut (s : JStr) : Nat → Nat
  | 0 => 0
  | p + 1 => if isContinuationByte s (p + 1) then adjustCut s p else p + 1

/-- The while loop of ICalWriter.foldLine, with explicit fuel.  One fuel unit
is one loop iteration; `none` means the fuel ran out.  Every terminating run
of the source loop makes progress (drops at least one unit) in each iteration
before the final one, so with fuel `length + 1` the result is `none` exactly
when the source loop runs forever (a zero cut leaves the remainder unchanged
and the loop state repeats). -/
def foldLoop : Nat → Bool → JStr → Option (List JStr)
  | 0, _, _ => none
  | fuel + 1, first, rem =>
    if rem.length = 0 then some []
    else
      let maxLen := if first then MAX_LINE_LENGTH else MAX_LINE_LENGTH - 1
      if rem.length ≤ maxLen then some [if first then rem else 32 :: rem]
      else
        let cut := adjustCut rem maxLen
        match foldLoop fuel false (rem.drop cut) with
        | none => none
        | some segs => some ((if first then rem.take cut else 32 :: rem.take cut) :: segs)

/-- The list of physical segments produced by ICalWriter.foldLine. -/
def foldLineSegs (line : JStr) : Option (List JStr) :=
  if line.length ≤ MAX_LINE_LENGTH then some [line]
  else foldLoop (line.length + 1) true line

/-- ICalWriter.foldLine: the segments joined with CRLF. -/
def foldLine (line : JStr) : Option JStr :=
  (foldLineSegs line).map (fun segs => List.intercalate [13, 10] segs)

/-- ASCII model of String.prototype.toUpperCase (the denylist entries are
pure ASCII, so only ASCII letters matter for the comparisons made here). -/
def toUpperU (c : Nat) : Nat := if 97 ≤ c && c ≤ 122 then c - 32 else c

def blockedProperties : List JStr :=
  [ofStr "X-APPLE-", ofStr "X-WR-ALARMUID", ofStr "ACKNOWLEDGED", ofStr "ATTACH"]

/-- ICalWriter.isAllowedProperty. -/
def isAllowedProperty (line : JStr) : Bool :=
  let ci := idxOf 58 line
  let si := idxOf 59 line
  let pn : Option JStr :=
    match si, ci with
    | some s1, none => some ((line.take s1).map toUpperU)
    | some s1, some c1 =>
      if s1 < c1 then some ((line.take s1).map toUpperU)
      else some ((line.take c1).map toUpperU)
    | none, some c1 => some ((line.take c1).map toUpperU)
    | none, none => none
  match pn with
  | none => false
  | some propName =>
    !(blockedProperties.any (fun b => b.isPrefixOf propName || propName = b))

def defaultHeader : List JStr :=
  [ofStr "BEGIN:VCALENDAR", ofStr "VERSION:2.0", ofStr "PRODID:-//iCAL Splitter//EN"]

/-- The per-event property lines emitted by ICalWriter.write: the non-blank
raw lines (or, when there are none, the raw line of each property entry),
restricted to allowed properties when clean mode is on. -/
def eventOutLines (ev : Event) (cleanMode : Bool) : List JStr :=
  if ev.rawLines.length ≠ 0 then
    (ev.rawLines.filter (fun l => trim l != [])).filter
      (fun l => !cleanMode || isAllowedProperty l)
  else
    ((ev.properties.map (fun kv => kv.2.raw)).filter (fun r => trim r != [])).filter
      (fun r => !cleanMode || isAllowedProperty r)

/-- ICalWriter.write.  The source pushes each header and event line through
foldLine and the fixed marker lines verbatim; folding a marker line is the
identity (they are far below 75 units), and `none` models the case where a
foldLine call fails to terminate. -/
def write (cal : Calendar) (events : List Event) (cleanMode : Bool) : Option JStr :=
  let hdrOpt : Option (List JStr) :=
    if cal.headerLines.length ≠ 0 then cal.headerLines.mapM foldLine
    else some defaultHeader
  match hdrOpt, events.mapM (fun ev => (eventOutLines ev cleanMode).mapM foldLine) with
  | some hdr, some bodies =>
    let outputLines :=
      hdr ++ (bodies.map (fun b => BEGINV :: b ++ [ENDV])).flatten ++ [ENDCAL]
    some (List.intercalate [13, 10] outputLines ++ [13, 10])
  | _, _ => none

/-- ICalWriter.filterByDateRange. -/
def filterByDateRange (tz : Int) (events : List Event)
    (startDate endDate : Option JSDate) : List Event :=
  events.filter (fun ev =>
    match getEventDate ev with
    | none => true
    | some d =>
      if (match startDate with
          | some sd => decide (dateMs tz d < dateMs tz sd)
          | none => false) then false
      else if (match endDate with
          | some ed => decide (dateMs tz ed < dateMs tz d)
          | none => false) then false
      else true)

/-- The bucket key used by ICalWriter.splitByYear: the full year of the
parsed date, or `none` for the sentinel string key for undated events. -/
def yearKey (tz : Int) (ev : Event) : Option Int :=
  (getEventDate ev).map (getFullYear tz)

/-- Appending one event to its bucket in the object map, creating the bucket
if absent.  The association list keeps first-insertion key order; the claims
do not concern the enumeration order of the buckets themselves. -/
def pushBucket (k : Option Int) (e : Event) :
    List (Option Int × List Event) → List (Option Int × List Event)
  | [] => [(k, [e])]
  | (k1, l) :: rest =>
    if k1 = k then (k1, l ++ [e]) :: rest else (k1, l) :: pushBucket k e rest

/-- ICalWriter.splitByYear. -/
def splitByYear (tz : Int) (events : List Event) : List (Option Int × List Event) :=
  events.foldl (fun acc e => pushBucket (yearKey tz e) e acc) []

/-- ICalWriter.getHeaderFooterSize. -/
def getHeaderFooterSize (cal : Calendar) : Nat :=
  let base := (ofStr "END:VCALENDAR\r\n").length
  if cal.headerLines.length ≠ 0 then
    base + (cal.headerLines.map (fun l => l.length + 2)).sum
  else
    base + (ofStr "BEGIN:VCALENDAR\r\nVERSION:2.0\r\nPRODID:-//iCAL Splitter//EN\r\n").length

/-- ICalWriter.getEventSize. -/
def getEventSize (ev : Event) : Nat :=
  let base := (ofStr "BEGIN:VEVENT\r\n").length + (ofStr "END:VEVENT\r\n").length
  if ev.rawLines.length ≠ 0 then
    base + (ev.rawLines.map (fun l => l.length + 2)).sum
  else
    base + (ev.properties.map (fun kv => kv.2.raw.length + 2)).sum

/-- Stable insertion used to model Array.prototype.sort with a comparator:
the new element goes before the first element it must strictly precede, hence
after every element that compares equal, which matches the required stable
sort for the consistent comparators used here. -/
def insertStable {α : Type} (lt : α → α → Bool) (x : α) : List α → List α
  | [] => [x]
  | y :: ys => if lt x y then x :: y :: ys else y :: insertStable lt x ys

def sortWith {α : Type} (lt : α → α → Bool) (l : List α) : List α :=
  l.foldl (fun acc x => insertStable lt x acc) []

/-- The comparator of the sort in ICalWriter.splitBySize: newest date first,
undated events after all dated ones. -/
def cmpEventsDesc (tz : Int) (a b : Event) : Int :=
  match getEventDate a, getEventDate b with
  | none, none => 0
  | none, some _ => 1
  | some _, none => -1
  | some da, some db => dateMs tz db - dateMs tz da

def jsSortEvents (tz : Int) (events : List Event) : List Event :=
  sortWith (fun a b => decide (cmpEventsDesc tz a b < 0)) events

structure Chunk where
  content : Option JStr
  startDate : Option JSDate
  endDate : Option JSDate
  eventCount : Nat
deriving DecidableEq

/-- ICalWriter.createChunkResult. -/
def createChunkResult (tz : Int) (cal : Calendar) (events : List Event)
    (cleanMode : Bool) : Chunk :=
  let dates := sortWith (fun a b => decide (dateMs tz a < dateMs tz b))
    (events.filterMap getEventDate)
  { content := write cal events cleanMode,
    startDate := dates.head?,
    endDate := dates.getLast?,
    eventCount := events.length }

/-- The accumulation loop of ICalWriter.splitBySize over the sorted events,
carrying the events of the open chunk and its estimated size. -/
def splitLoop (tz : Int) (cal : Calendar) (maxSizeBytes : Nat) (cleanMode : Bool) :
    List Event → List Event → Nat → List Chunk
  | [], cur, _ =>
    if cur.length ≠ 0 then [createChunkResult tz cal cur cleanMode] else []
  | e :: rest, cur, size =>
    let es := getEventSize e
    if maxSizeBytes < size + es && cur.length ≠ 0 then
      createChunkResult tz cal cur cleanMode ::
        splitLoop tz cal maxSizeBytes cleanMode rest [e] (getHeaderFooterSize cal + es)
    else
      splitLoop tz cal maxSizeBytes cleanMode rest (cur ++ [e]) (size + es)

/-- ICalWriter.splitBySize. -/
def splitBySize (tz : Int) (cal : Calendar) (events : List Event)
    (maxSizeBytes : Nat) (cleanMode : Bool) : List Chunk :=
  splitLoop tz cal maxSizeBytes cleanMode (jsSortEvents tz events) []
    (getHeaderFooterSize cal)

/-- The same loop keeping the event groups instead of the serialized chunks;
used to state and prove the structural facts about splitBySize. -/
def splitGroups (cal : Calendar) (maxSizeBytes : Nat) :
    List Event → List Event → Nat → List (List Event)
  | [], cur, _ => if cur.length ≠ 0 then [cur] else []
  | e :: rest, cur, size =>
    let es := getEventSize e
    if maxSizeBytes < size + es && cur.length ≠ 0 then
      cur :: splitGroups cal maxSizeBytes rest [e] (getHeaderFooterSize cal + es)
    else
      splitGroups cal maxSizeBytes rest (cur ++ [e]) (size + es)

/-!  Specification-side definitions, written from the wording of the claims
(not from the code), used to state refinement claims. -/

/-- The property name as described by the specification: the part of the line
before the first colon or semicolon (the whole line when neither occurs),
compared case-insensitively. -/
def specPropName (line : JStr) : JStr :=
  (line.takeWhile (fun c => c != 58 && c != 59)).map toUpperU

/-- Whether a property name matches the denylist by prefix or exact
equality. -/
def matchesDenylist (name : JStr) : Bool :=
  blockedProperties.any (fun b => b.isPrefixOf name || name = b)

/-- Whether the line contains a colon or semicolon separator at all. -/
def hasSeparator (line : JStr) : Bool :=
  (idxOf 58 line).isSome || (idxOf 59 line).isSome

theorem idxOf_some_spec {c : Nat} :
    ∀ {l : JStr} {i : Nat}, idxOf c l = some i →
      i < l.length ∧ l.getD i 0 = c ∧ ∀ j, j < i → l.getD j 0 ≠ c := by
  intro l
  induction l with
  | nil => intro i h; simp [idxOf] at h
  | cons d rest ih =>
    intro i h
    by_cases hd : d = c
    · simp [idxOf, hd] at h
      subst h
      refine ⟨by simp, by simp [hd], ?_⟩
      intro j hj; omega
    · simp [idxOf, hd] at h
      obtain ⟨i0, hi0, rfl⟩ := h
      obtain ⟨h1, h2, h3⟩ := ih hi0
      refine ⟨by simpa using h1, by simpa using h2, ?_⟩
      intro j hj
      cases j with
      | zero => simpa using hd
      | succ j0 =>
        have : j0 < i0 := by omega
        simpa using h3 j0 this

theorem idxOf_none_spec {c : Nat} :
    ∀ {l : JStr}, idxOf c l = none → ∀ j, j < l.length → l.getD j 0 ≠ c := by
  intro l
  induction l with
  | nil => intro _ j hj; simp at hj
  | cons d rest ih =>
    intro h j hj
    by_cases hd : d = c
    · simp [idxOf, hd] at h
    · simp [idxOf, hd] at h
      cases j with
      | zero => simpa using hd
      | succ j0 =>
        have hl : j0 < rest.length := by simpa using hj
        simpa using ih h j0 hl

theorem takeWhile_eq_take_of {p : Nat → Bool} :
    ∀ (l : JStr) (i : Nat), i ≤ l.length →
      (∀ j, j < i → p (l.getD j 0) = true) →
      (i < l.length → p (l.getD i 0) = false) →
      l.takeWhile p = l.take i := by
  intro l
  induction l with
  | nil => intro i _ _ _; simp
  | cons d rest ih =>
    intro i hle h1 h2
    cases i with
    | zero =>
      have hp : p d = false := by simpa using h2 (by simp)
      simp [List.takeWhile_cons, hp]
    | succ i0 =>
      have hp : p d = true := by simpa using h1 0 (by omega)
      have hrec : rest.takeWhile p = rest.take i0 := by
        refine ih i0 (by simpa using hle) ?_ ?_
        · intro j hj; simpa using h1 (j + 1) (by omega)
        · intro hlt; simpa using h2 (by simpa using hlt)
      simp [List.takeWhile_cons, hp, hrec]

/-- The name computed by isAllowedProperty agrees with the specification
name whenever a separator is present. -/
theorem specPropName_take_58 {line : JStr} {c1 : Nat}
    (h58 : idxOf 58 line = some c1)
    (h59 : ∀ j, j < c1 → line.getD j 0 ≠ 59) :
    specPropName line = (line.take c1).map toUpperU := by
  obtain ⟨hlt, hat, hbefore⟩ := idxOf_some_spec h58
  unfold specPropName
  have ht : line.takeWhile (fun c => c != 58 && c != 59) = line.take c1 := by
    refine takeWhile_eq_take_of line c1 (by omega) ?_ ?_
    · intro j hj
      have hne58 := hbefore j hj
      have hne59 := h59 j hj
      rw [List.getD_eq_getElem?_getD] at hne58 hne59
      simp [hne58, hne59]
    · intro _
      rw [List.getD_eq_getElem?_getD] at hat
      simp [hat]
  rw [ht]

theorem specPropName_take_59 {line : JStr} {s1 : Nat}
    (h59 : idxOf 59 line = some s1)
    (h58 : ∀ j, j < s1 → line.getD j 0 ≠ 58) :
    specPropName line = (line.take s1).map toUpperU := by
  obtain ⟨hlt, hat, hbefore⟩ := idxOf_some_spec h59
  unfold specPropName
  have ht : line.takeWhile (fun c => c != 58 && c != 59) = line.take s1 := by
    refine takeWhile_eq_take_of line s1 (by omega) ?_ ?_
    · intro j hj
      have hne59 := hbefore j hj
      have hne58 := h58 j hj
      rw [List.getD_eq_getElem?_getD] at hne58 hne59
      simp [hne58, hne59]
    · intro _
      rw [List.getD_eq_getElem?_getD] at hat
      simp [hat]
  rw [ht]

/-- C5 counterexample: a line with no colon and no semicolon is rejected by
isAllowedProperty although its property name matches nothing on the
denylist, contradicting the claimed equivalence. -/
theorem C5_counterexample :
    isAllowedProperty (ofStr "HELLO") = false ∧
    matchesDenylist (specPropName (ofStr "HELLO")) = false := by
  constructor <;> decide

/-- C5 (amended): isAllowedProperty returns false exactly when the property
name extracted from the line matches the denylist (by prefix or exact
equality, case-insensitively) or the line has no colon and no semicolon at
all; every line with a separator whose name matches nothing is allowed. -/
theorem C5_isAllowedProperty_denylist (line : JStr) :
    isAllowedProperty line = false ↔
      (matchesDenylist (specPropName line) = true ∨ hasSeparator line = false) := by
  rcases h58 : idxOf 58 line with _ | c1 <;> rcases h59 : idxOf 59 line with _ | s1
  · have : isAllowedProperty line = false := by
      simp [isAllowedProperty, h58, h59]
    simp [this, hasSeparator, h58, h59]
  · -- semicolon only
    have hname : specPropName line = (line.take s1).map toUpperU :=
      specPropName_take_59 h59 (fun j hj => by
        obtain ⟨hlt, _, _⟩ := idxOf_some_spec h59
        exact idxOf_none_spec h58 j (by omega))
    have hcode : isAllowedProperty line = !(matchesDenylist ((line.take s1).map toUpperU)) := by
      simp [isAllowedProperty, h58, h59, matchesDenylist]
    rw [hcode, hname]
    have hsep : hasSeparator line = true := by simp [hasSeparator, h59]
    rcases hm : matchesDenylist ((line.take s1).map toUpperU) <;> simp [hsep, hm]
  · -- colon only
    have hname : specPropName line = (line.take c1).map toUpperU :=
      specPropName_take_58 h58 (fun j hj => by
        obtain ⟨hlt, _, _⟩ := idxOf_some_spec h58
        exact idxOf_none_spec h59 j (by omega))
    have hcode : isAllowedProperty line = !(matchesDenylist ((line.take c1).map toUpperU)) := by
      simp [isAllowedProperty, h58, h59, matchesDenylist]
    rw [hcode, hname]
    have hsep : hasSeparator line = true := by simp [hasSeparator, h58]
    rcases hm : matchesDenylist ((line.take c1).map toUpperU) <;> simp [hsep, hm]
  · -- both present
    obtain ⟨hlt58, hat58, hbefore58⟩ := idxOf_some_spec h58
    obtain ⟨hlt59, hat59, hbefore59⟩ := idxOf_some_spec h59
    have hsep : hasSeparator line = true := by simp [hasSeparator, h58]
    by_cases hord : s1 < c1
    · have hname : specPropName line = (line.take s1).map toUpperU :=
        specPropName_take_59 h59 (fun j hj => hbefore58 j (by omega))
      have hcode : isAllowedProperty line = !(matchesDenylist ((line.take s1).map toUpperU)) := by
        simp [isAllowedProperty, h58, h59, hord, matchesDenylist]
      rw [hcode, hname]
      rcases hm : matchesDenylist ((line.take s1).map toUpperU) <;> simp [hsep, hm]
    · have hne : c1 ≠ s1 := by
        intro hcontra
        rw [hcontra] at hat58
        rw [hat58] at hat59
        exact absurd hat59 (by norm_num)
      have hord2 : c1 < s1 := by omega
      have hname : specPropName line = (line.take c1).map toUpperU :=
        specPropName_take_58 h58 (fun j hj => hbefore59 j (by omega))
      have hcode : isAllowedProperty line = !(matchesDenylist ((line.take c1).map toUpperU)) := by
        simp [isAllowedProperty, h58, h59, hord, matchesDenylist]
      rw [hcode, hname]
      rcases hm : matchesDenylist ((line.take c1).map toUpperU) <;> simp [hsep, hm]

/-- The keep predicate as worded by the specification: events with no
parsable date are always kept; otherwise the date must lie within the
bounds inclusively, an absent bound being unbounded on that side. -/
def keepSpecB (tz : Int) (startDate endDate : Option JSDate) (ev : Event) : Bool :=
  match getEventDate ev with
  | none => true
  | some d =>
    (match startDate with
     | some sd => decide (dateMs tz sd ≤ dateMs tz d)
     | none => true) &&
    (match endDate with
     | some ed => decide (dateMs tz d ≤ dateMs tz ed)
     | none => true)

/-- C6: filterByDateRange keeps an event exactly when it has no parsable
date or its parsed date lies inclusively within the given bounds, an absent
bound being unbounded on that side, and the result is a subsequence of the
input, preserving the original relative order of the kept events. -/
theorem C6_filterByDateRange_spec (tz : Int) (events : List Event)
    (startDate endDate : Option JSDate) :
    filterByDateRange tz events startDate endDate =
      events.filter (keepSpecB tz startDate endDate) ∧
    (filterByDateRange tz events startDate endDate).Sublist events := by
  have hpt : ∀ ev ∈ events,
      (fun ev =>
        match getEventDate ev with
        | none => true
        | some d =>
          if (match startDate with
              | some sd => decide (dateMs tz d < dateMs tz sd)
              | none => false) then false
          else if (match endDate with
              | some ed => decide (dateMs tz ed < dateMs tz d)
              | none => false) then false
          else true) ev = keepSpecB tz startDate endDate ev := by
    intro ev _
    unfold keepSpecB
    rcases hgd : getEventDate ev with _ | d <;> simp only [hgd]
    rcases startDate with _ | sd <;> rcases endDate with _ | ed
    · simp
    · by_cases h2 : dateMs tz ed < dateMs tz d
      · have : ¬ dateMs tz d ≤ dateMs tz ed := by omega
        simp [h2, this]
      · have : dateMs tz d ≤ dateMs tz ed := by omega
        simp [h2, this]
    · by_cases h1 : dateMs tz d < dateMs tz sd
      · have : ¬ dateMs tz sd ≤ dateMs tz d := by omega
        simp [h1, this]
      · have : dateMs tz sd ≤ dateMs tz d := by omega
        simp [h1, this]
    · by_cases h1 : dateMs tz d < dateMs tz sd
      · have : ¬ dateMs tz sd ≤ dateMs tz d := by omega
        simp [h1, this]
      · have hle1 : dateMs tz sd ≤ dateMs tz d := by omega
        by_cases h2 : dateMs tz ed < dateMs tz d
        · have : ¬ dateMs tz d ≤ dateMs tz ed := by omega
          simp [h1, h2, hle1, this]
        · have : dateMs tz d ≤ dateMs tz ed := by omega
          simp [h1, h2, hle1, this]
  have heq : filterByDateRange tz events startDate endDate =
      events.filter (keepSpecB tz startDate endDate) := by
    unfold filterByDateRange
    exact List.filter_congr hpt
  exact ⟨heq, heq ▸ List.filter_sublist events⟩

theorem pushBucket_keys (k : Option Int) (e : Event) :
    ∀ acc : List (Option Int × List Event),
      (pushBucket k e acc).map Prod.fst =
        if k ∈ acc.map Prod.fst then acc.map Prod.fst else acc.map Prod.fst ++ [k] := by
  intro acc
  induction acc with
  | nil => simp [pushBucket]
  | cons hd tl ih =>
    obtain ⟨k1, l⟩ := hd
    by_cases hk : k1 = k
    · subst hk
      simp [pushBucket]
    · have hk2 : ¬ k = k1 := fun hcontra => hk hcontra.symm
      by_cases hmem : k ∈ tl.map Prod.fst
      · simp [pushBucket, hk, ih, hmem, hk2]
      · simp [pushBucket, hk, ih, hmem, hk2]

theorem pushBucket_mem (k : Option Int) (e : Event) :
    ∀ (acc : List (Option Int × List Event)), (acc.map Prod.fst).Nodup →
      ∀ (k1 : Option Int) (l1 : List Event), (k1, l1) ∈ pushBucket k e acc →
      (k1 ≠ k ∧ (k1, l1) ∈ acc) ∨
      (k1 = k ∧ ((∃ l, (k, l) ∈ acc ∧ l1 = l ++ [e]) ∨
                  (k ∉ acc.map Prod.fst ∧ l1 = [e]))) := by
  intro acc
  induction acc with
  | nil =>
    intro _ k1 l1 h
    simp [pushBucket] at h
    exact Or.inr ⟨h.1, Or.inr ⟨by simp, h.2⟩⟩
  | cons hd tl ih =>
    intro hnd k1 l1 h
    obtain ⟨k2, l2⟩ := hd
    have hndtl : (tl.map Prod.fst).Nodup := by
      simpa using List.Nodup.of_cons hnd
    have hk2tl : k2 ∉ tl.map Prod.fst := by
      have h := hnd
      simp only [List.map_cons] at h
      exact (List.nodup_cons.mp h).1
    by_cases hk : k2 = k
    · subst hk
      simp only [pushBucket, if_pos rfl] at h
      rcases List.mem_cons.mp h with hhd | htl
      · have hk1 : k1 = k2 := by
          have := Prod.mk.injEq .. ▸ hhd
          exact (Prod.mk.injEq _ _ _ _ ▸ hhd).1
        have hl1 : l1 = l2 ++ [e] := (Prod.mk.injEq _ _ _ _ ▸ hhd).2
        exact Or.inr ⟨hk1, Or.inl ⟨l2, by simp, hl1⟩⟩
      · have hk1ne : k1 ≠ k2 := by
          intro hcontra
          subst hcontra
          exact hk2tl (by simpa using List.mem_map_of_mem Prod.fst htl)
        exact Or.inl ⟨hk1ne, List.mem_cons_of_mem _ htl⟩
    · simp only [pushBucket, if_neg hk] at h
      rcases List.mem_cons.mp h with hhd | htl
      · have hk1 : k1 = k2 := (Prod.mk.injEq _ _ _ _ ▸ hhd).1
        have hl1 : l1 = l2 := (Prod.mk.injEq _ _ _ _ ▸ hhd).2
        refine Or.inl ⟨?_, by rw [hk1, hl1]; simp⟩
        rw [hk1]
        exact fun hcontra => hk hcontra
      · rcases ih hndtl k1 l1 htl with hl | hr
        · exact Or.inl ⟨hl.1, List.mem_cons_of_mem _ hl.2⟩
        · refine Or.inr ⟨hr.1, ?_⟩
          rcases hr.2 with ⟨l, hmem, heq⟩ | ⟨hnot, heq⟩
          · exact Or.inl ⟨l, List.mem_cons_of_mem _ hmem, heq⟩
          · refine Or.inr ⟨?_, heq⟩
            intro hcontra
            simp only [List.map_cons] at hcontra
            rcases List.mem_cons.mp hcontra with h1 | h2
            · exact hk h1.symm
            · exact hnot h2

theorem splitByYearAux_spec (tz : Int) :
    ∀ (evs pre : List Event) (acc : List (Option Int × List Event)),
      (acc.map Prod.fst).Nodup →
      (∀ k l, (k, l) ∈ acc → l = pre.filter (fun e => yearKey tz e == k)) →
      (∀ e ∈ pre, yearKey tz e ∈ acc.map Prod.fst) →
      (∀ k, k ∈ acc.map Prod.fst → ∃ e ∈ pre, yearKey tz e = k) →
      (((evs.foldl (fun a e => pushBucket (yearKey tz e) e a) acc).map Prod.fst).Nodup ∧
       (∀ k l, (k, l) ∈ evs.foldl (fun a e => pushBucket (yearKey tz e) e a) acc →
         l = (pre ++ evs).filter (fun e => yearKey tz e == k)) ∧
       (∀ e ∈ pre ++ evs,
         yearKey tz e ∈ (evs.foldl (fun a e => pushBucket (yearKey tz e) e a) acc).map Prod.fst) ∧
       (∀ k, k ∈ (evs.foldl (fun a e => pushBucket (yearKey tz e) e a) acc).map Prod.fst →
         ∃ e ∈ pre ++ evs, yearKey tz e = k)) := by
  intro evs
  induction evs with
  | nil =>
    intro pre acc h1 h2 h3 h4
    simp only [List.foldl_nil, List.append_nil]
    exact ⟨h1, h2, h3, h4⟩
  | cons e evs ih =>
    intro pre acc h1 h2 h3 h4
    have hkeys := pushBucket_keys (yearKey tz e) e acc
    have h1' : ((pushBucket (yearKey tz e) e acc).map Prod.fst).Nodup := by
      rw [hkeys]
      by_cases hmem : yearKey tz e ∈ acc.map Prod.fst
      · simpa [hmem] using h1
      · simp only [if_neg hmem]
        simp [List.nodup_append, h1, hmem]
    have h2' : ∀ k l, (k, l) ∈ pushBucket (yearKey tz e) e acc →
        l = (pre ++ [e]).filter (fun x => yearKey tz x == k) := by
      intro k l hmem
      rcases pushBucket_mem (yearKey tz e) e acc h1 k l hmem with ⟨hne, hin⟩ | ⟨heq, hcase⟩
      · have := h2 k l hin
        rw [List.filter_append, this]
        have : [e].filter (fun x => yearKey tz x == k) = [] := by
          have hbe : (yearKey tz e == k) = false := by
            rw [beq_eq_false_iff_ne]
            exact fun hcontra => hne hcontra.symm
          simp [List.filter, hbe]
        rw [this, List.append_nil]
      · subst heq
        rcases hcase with ⟨l0, hl0, rfl⟩ | ⟨hnot, rfl⟩
        · have := h2 _ _ hl0
          rw [List.filter_append, ← this]
          simp [List.filter]
        · have hpre : pre.filter (fun x => yearKey tz x == yearKey tz e) = [] := by
            rw [List.filter_eq_nil_iff]
            intro a ha
            intro hcontra
            exact hnot (by
              have : yearKey tz a = yearKey tz e := by simpa using hcontra
              exact this ▸ h3 a ha)
          rw [List.filter_append, hpre]
          simp [List.filter]
    have h3' : ∀ x ∈ pre ++ [e],
        yearKey tz x ∈ (pushBucket (yearKey tz e) e acc).map Prod.fst := by
      intro x hx
      rw [hkeys]
      rcases List.mem_append.mp hx with hx1 | hx2
      · by_cases hmem : yearKey tz e ∈ acc.map Prod.fst
        · simpa [hmem] using h3 x hx1
        · simp only [if_neg hmem]
          exact List.mem_append_left _ (h3 x hx1)
      · have hxe : x = e := by simpa using hx2
        subst hxe
        by_cases hmem : yearKey tz x ∈ acc.map Prod.fst
        · simp [hmem]
        · simp [if_neg hmem]
    have h4' : ∀ k, k ∈ (pushBucket (yearKey tz e) e acc).map Prod.fst →
        ∃ x ∈ pre ++ [e], yearKey tz x = k := by
      intro k hk
      rw [hkeys] at hk
      by_cases hmem : yearKey tz e ∈ acc.map Prod.fst
      · rw [if_pos hmem] at hk
        obtain ⟨x, hx, hxk⟩ := h4 k hk
        exact ⟨x, List.mem_append_left _ hx, hxk⟩
      · rw [if_neg hmem] at hk
        rcases List.mem_append.mp hk with hk1 | hk2
        · obtain ⟨x, hx, hxk⟩ := h4 k hk1
          exact ⟨x, List.mem_append_left _ hx, hxk⟩
        · have : k = yearKey tz e := by simpa using hk2
          exact ⟨e, by simp, this.symm⟩
    have := ih (pre ++ [e]) (pushBucket (yearKey tz e) e acc) h1' h2' h3' h4'
    simpa [List.append_assoc] using this

/-- C7: splitByYear partitions the events: the bucket keys are pairwise
distinct, every bucket is exactly the subsequence of input events carrying
that key (so within-bucket order is the original order and no bucket is
empty), and every event lies in the bucket keyed by its date year (the
sentinel key, modelled as `none`, for events with no parsable date). -/
theorem C7_splitByYear_partition (tz : Int) (events : List Event) :
    ((splitByYear tz events).map Prod.fst).Nodup ∧
    (∀ k l, (k, l) ∈ splitByYear tz events →
      l = events.filter (fun e => yearKey tz e == k) ∧ l ≠ []) ∧
    (∀ e ∈ events,
      (yearKey tz e, events.filter (fun x => yearKey tz x == yearKey tz e)) ∈
        splitByYear tz events) := by
  have hmain := splitByYearAux_spec tz events [] []
    (by simp) (by simp) (by simp) (by simp)
  simp only [List.nil_append] at hmain
  obtain ⟨hnd, hbk, hmem, hexist⟩ := hmain
  refine ⟨hnd, ?_, ?_⟩
  · intro k l hkl
    have hl := hbk k l hkl
    refine ⟨hl, ?_⟩
    have hkin : k ∈ (splitByYear tz events).map Prod.fst := by
      simpa using List.mem_map_of_mem Prod.fst hkl
    obtain ⟨x, hx, hxk⟩ := hexist k hkin
    rw [hl]
    intro hcontra
    rw [List.filter_eq_nil_iff] at hcontra
    exact hcontra x hx (by simp [hxk])
  · intro e he
    have hkin := hmem e he
    rw [List.mem_map] at hkin
    obtain ⟨⟨k, l⟩, hkl, hfst⟩ := hkin
    simp only at hfst
    subst hfst
    have hl := hbk _ l hkl
    rw [hl] at hkl
    exact hkl

def wDTSTARTraw : JStr := ofStr "DTSTART:20240115"

/-- A concrete dated event, as parse would build it. -/
def wevA : Event :=
  { properties :=
      [(ofStr "DTSTART", { value := ofStr "20240115", parameters := [], raw := wDTSTARTraw })],
    rawLines := [wDTSTARTraw] }

/-- A concrete undated event. -/
def wevU : Event :=
  { properties := [], rawLines := [ofStr "SUMMARY:undated"] }

/-- C7 witness: on a concrete two-event list with timezone offset zero, the
dated event lands in the bucket keyed by its calendar year. -/
theorem C7_splitByYear_witness :
    yearKey 0 wevA = some 2024 ∧
    (yearKey 0 wevA, [wevA, wevU].filter (fun x => yearKey 0 x == yearKey 0 wevA)) ∈
      splitByYear 0 [wevA, wevU] :=
  ⟨by decide, (C7_splitByYear_partition 0 [wevA, wevU]).2.2 wevA (by simp)⟩

/-- The strip step exactly as the claim words it: remove any prefix up to
and including a final colon, with no restriction about line terminators. -/
def specStripFinalColon (s : JStr) : JStr :=
  match lastIdxOf 58 s with
  | none => s
  | some i => s.drop (i + 1)

/-- The date grammar of the specification: eight digits, optionally followed
by a T and six digits, optionally followed by a Z. -/
def grammarOK (s : JStr) : Prop :=
  ∃ a : JStr, a.length = 8 ∧ allDigits a = true ∧
    (s = a ∨ ∃ b : JStr, b.length = 6 ∧ allDigits b = true ∧
      (s = a ++ (84 :: b) ∨ s = a ++ (84 :: (b ++ [90]))))

/-- The shape facts the claim states about a successfully parsed date: a
date-only string yields midnight, and the result is marked UTC exactly when
the matched text ends in a Z. -/
def parsedShape (s : JStr) : Prop :=
  ∀ dt, parseICalDate s = some dt →
    ((stripToColon s).length = 8 → dt.hour = 0 ∧ dt.minute = 0 ∧ dt.second = 0) ∧
    (dt.isUTC = true ↔ (stripToColon s).getLast? = some 90)

theorem drop_eq_getD_cons : ∀ (l : JStr) (n : Nat), n < l.length →
    l.drop n = l.getD n 0 :: l.drop (n + 1) := by
  intro l
  induction l with
  | nil => intro n h; simp at h
  | cons c rest ih =>
    intro n h
    cases n with
    | zero => simp
    | succ n0 =>
      have := ih n0 (by simpa using h)
      simpa using this

theorem getD_of_drop_cons {l : JStr} {n : Nat} {c : Nat} {rest : JStr}
    (h : l.drop n = c :: rest) : l.getD n 0 = c := by
  have hlt : n < l.length := by
    by_contra hcontra
    rw [List.drop_eq_nil_of_le (by omega)] at h
    exact List.noConfusion h
  have := drop_eq_getD_cons l n hlt
  rw [this] at h
  exact (List.cons.injEq _ _ _ _ ▸ h).1

theorem allDigits_last_ne_90 {l : JStr} (hd : allDigits l = true) :
    ¬ l.getLast? = some 90 := by
  intro hcontra
  have hmem : (90 : Nat) ∈ l := List.mem_of_mem_getLast? (by simp [hcontra])
  have := (List.all_eq_true.mp hd) 90 hmem
  simp [isDigit] at this

/-- The three mutually exclusive shapes tested by parseICalDate are exactly
the grammar of the specification. -/
theorem grammar_iff_branches (c : JStr) :
    grammarOK c ↔
      ((c.length = 8 ∧ allDigits c = true) ∨
       (c.length = 15 ∧ allDigits (c.take 8) = true ∧ c.getD 8 0 = 84 ∧
         allDigits (c.drop 9) = true) ∨
       (c.length = 16 ∧ allDigits (c.take 8) = true ∧ c.getD 8 0 = 84 ∧
         allDigits ((c.drop 9).take 6) = true ∧ c.getD 15 0 = 90)) := by
  constructor
  · rintro ⟨a, ha8, had, hcase⟩
    rcases hcase with rfl | ⟨b, hb6, hbd, hcase2⟩
    · exact Or.inl ⟨ha8, had⟩
    · rcases hcase2 with rfl | rfl
      · refine Or.inr (Or.inl ⟨?_, ?_, ?_, ?_⟩)
        · simp [ha8, hb6]
        · rw [List.take_left' ha8]; exact had
        · exact getD_of_drop_cons (List.drop_left' ha8)
        · have h9 : (a ++ 84 :: b).drop 9 = b := by
            have h1 : (a ++ 84 :: b).drop 8 = 84 :: b := List.drop_left' ha8
            have := List.drop_drop 1 8 (a ++ 84 :: b)
            rw [h1] at this
            simpa using this.symm
          rw [h9]; exact hbd
      · refine Or.inr (Or.inr ⟨?_, ?_, ?_, ?_, ?_⟩)
        · simp [ha8, hb6]
        · rw [List.take_left' ha8]
          exact had
        · exact getD_of_drop_cons (List.drop_left' ha8)
        · have h9 : (a ++ (84 :: (b ++ [90]))).drop 9 = b ++ [90] := by
            have h1 : (a ++ (84 :: (b ++ [90]))).drop 8 = 84 :: (b ++ [90]) :=
              List.drop_left' ha8
            have := List.drop_drop 1 8 (a ++ (84 :: (b ++ [90])))
            rw [h1] at this
            simpa using this.symm
          rw [h9, List.take_left' hb6]
          exact hbd
        · have h9 : (a ++ (84 :: (b ++ [90]))).drop 9 = b ++ [90] := by
            have h1 : (a ++ (84 :: (b ++ [90]))).drop 8 = 84 :: (b ++ [90]) :=
              List.drop_left' ha8
            have := List.drop_drop 1 8 (a ++ (84 :: (b ++ [90])))
            rw [h1] at this
            simpa using this.symm
          have h15 : (a ++ (84 :: (b ++ [90]))).drop 15 = [90] := by
            have := List.drop_drop 6 9 (a ++ (84 :: (b ++ [90])))
            rw [h9, List.drop_left' hb6] at this
            simpa using this.symm
          exact getD_of_drop_cons h15
  · rintro (⟨h8, hd⟩ | ⟨h15, hd1, h84, hd2⟩ | ⟨h16, hd1, h84, hd2, h90⟩)
    · exact ⟨c, h8, hd, Or.inl rfl⟩
    · refine ⟨c.take 8, by simp [h15], hd1, Or.inr ⟨c.drop 9, by simp [h15], hd2, Or.inl ?_⟩⟩
      have hsplit : c = c.take 8 ++ c.drop 8 := (List.take_append_drop 8 c).symm
      have hdrop := drop_eq_getD_cons c 8 (by omega)
      rw [h84] at hdrop
      rw [hdrop] at hsplit
      simpa using hsplit
    · refine ⟨c.take 8, by simp [h16], hd1,
        Or.inr ⟨(c.drop 9).take 6, by simp [h16], hd2, Or.inr ?_⟩⟩
      have hsplit : c = c.take 8 ++ c.drop 8 := (List.take_append_drop 8 c).symm
      have hdrop := drop_eq_getD_cons c 8 (by omega)
      rw [h84] at hdrop
      have hdrop15 : (c.drop 9).drop 6 = [90] := by
        rw [List.drop_drop]
        have := drop_eq_getD_cons c 15 (by omega)
        rw [h90, List.drop_eq_nil_of_le (show c.length ≤ 15 + 1 by omega)] at this
        simpa using this
      have h9 : c.drop 9 = (c.drop 9).take 6 ++ [90] := by
        have hsplit9 := List.take_append_drop 6 (c.drop 9)
        rw [hdrop15] at hsplit9
        exact hsplit9.symm
      rw [hdrop] at hsplit
      rw [show (8 : Nat) + 1 = 9 from rfl] at hsplit
      rw [h9] at hsplit
      exact hsplit

theorem parseICalDate_isSome_iff (s : JStr) :
    (parseICalDate s).isSome = true ↔ grammarOK (stripToColon s) := by
  rw [grammar_iff_branches]
  by_cases hs : s = []
  · subst hs
    constructor
    · intro h
      simp [parseICalDate] at h
    · rintro (⟨h8, _⟩ | ⟨h15, _, _, _⟩ | ⟨h16, _, _, _, _⟩)
      · simp [stripToColon, lastIdxOf, idxOf] at h8
      · simp [stripToColon, lastIdxOf, idxOf] at h15
      · simp [stripToColon, lastIdxOf, idxOf] at h16
  · constructor
    · intro h
      simp only [parseICalDate, if_neg hs] at h
      split_ifs at h with h1 h2 h3
      · simp only [Bool.and_eq_true, decide_eq_true_eq] at h1
        exact Or.inl h1
      · simp only [Bool.and_eq_true, decide_eq_true_eq] at h2
        exact Or.inr (Or.inl ⟨h2.1.1.1, h2.1.1.2, h2.1.2, h2.2⟩)
      · simp only [Bool.and_eq_true, decide_eq_true_eq] at h3
        exact Or.inr (Or.inr ⟨h3.1.1.1.1, h3.1.1.1.2, h3.1.1.2, h3.1.2, h3.2⟩)
      · simp at h
    · rintro (⟨h8, hd⟩ | ⟨h15, hd1, h84, hd2⟩ | ⟨h16, hd1, h84, hd2, h90⟩)
      · simp [parseICalDate, hs, h8, hd]
      · have h84e : (stripToColon s)[8] = 84 := by
          rw [List.getD_eq_getElem _ 0 (by omega)] at h84
          exact h84
        simp [parseICalDate, hs, h15, hd1, h84e, hd2]
      · have h84e : (stripToColon s)[8] = 84 := by
          rw [List.getD_eq_getElem _ 0 (by omega)] at h84
          exact h84
        have h90e : (stripToColon s)[15] = 90 := by
          rw [List.getD_eq_getElem _ 0 (by omega)] at h90
          exact h90
        simp [parseICalDate, hs, h16, hd1, h84e, hd2, h90e]

theorem parseICalDate_shape (s : JStr) : parsedShape s := by
  intro dt hdt
  by_cases hs : s = []
  · rw [hs] at hdt
    simp [parseICalDate] at hdt
  · simp only [parseICalDate, if_neg hs] at hdt
    split_ifs at hdt with h1 h2 h3
    · simp only [Bool.and_eq_true, decide_eq_true_eq] at h1
      obtain ⟨hlen, hdig⟩ := h1
      have hdt' := Option.some.inj hdt
      subst hdt'
      refine ⟨fun _ => ⟨rfl, rfl, rfl⟩, ?_⟩
      constructor
      · intro hcontra
        simp at hcontra
      · intro hlast
        exact absurd hlast (allDigits_last_ne_90 hdig)
    · simp only [Bool.and_eq_true, decide_eq_true_eq] at h2
      obtain ⟨⟨⟨hlen, hdA⟩, h84⟩, hdB⟩ := h2
      have hdt' := Option.some.inj hdt
      subst hdt'
      constructor
      · intro h8
        exfalso
        omega
      · constructor
        · intro hcontra
          simp at hcontra
        · intro hlast
          have hsplit : (stripToColon s).take 9 ++ (stripToColon s).drop 9 = stripToColon s :=
            List.take_append_drop 9 _
          rw [← hsplit, List.getLast?_append] at hlast
          have hne : (stripToColon s).drop 9 ≠ [] := by
            intro hcon
            have := congrArg List.length hcon
            simp at this
            omega
          rcases hl : ((stripToColon s).drop 9).getLast? with _ | d
          · exact (hne (List.getLast?_eq_none_iff.mp hl)).elim
          · rw [hl] at hlast
            simp only [Option.or_some] at hlast
            have hd90 : d = 90 := Option.some.inj hlast
            rw [hd90] at hl
            exact (allDigits_last_ne_90 hdB hl).elim
    · simp only [Bool.and_eq_true, decide_eq_true_eq] at h3
      obtain ⟨⟨⟨⟨hlen, hdA⟩, h84⟩, hdB⟩, h90⟩ := h3
      have hdt' := Option.some.inj hdt
      subst hdt'
      constructor
      · intro h8
        exfalso
        omega
      · have hlast : (stripToColon s).getLast? = some 90 := by
          have h15lt : 15 < (stripToColon s).length := by omega
          have hdrop : (stripToColon s).drop 15 = [90] := by
            rw [drop_eq_getD_cons _ 15 h15lt, h90,
              List.drop_eq_nil_of_le (show (stripToColon s).length ≤ 15 + 1 by omega)]
          conv_lhs => rw [← List.take_append_drop 15 (stripToColon s)]
          rw [hdrop]
          exact List.getLast?_concat _
        simp [hlast]

/-- C8 (amended): parseICalDate returns a date exactly when the input, after
the strip step (which removes everything up to and including the last colon
that occurs before any line terminator, and strips nothing when no such
colon exists), matches the grammar YYYYMMDD optionally followed by T and
HHMMSS, optionally followed by Z; any deviation returns nothing, a date-only
match yields midnight, and the result is marked UTC exactly when the match
ends in Z (otherwise it is a naive local time). -/
theorem C8_parseICalDate_grammar (s : JStr) :
    ((parseICalDate s).isSome = true ↔ grammarOK (stripToColon s)) ∧ parsedShape s :=
  ⟨parseICalDate_isSome_iff s, parseICalDate_shape s⟩

def C8badInput : JStr := 10 :: 58 :: ofStr "20240101"

/-- C8 counterexample: on an input whose only colon follows a line
terminator, stripping up to the final colon leaves a string matching the
grammar, yet parseICalDate returns nothing, because the greedy dot of the
source regular expression cannot cross the line terminator. -/
theorem C8_counterexample :
    parseICalDate C8badInput = none ∧ grammarOK (specStripFinalColon C8badInput) := by
  constructor
  · decide
  · exact ⟨ofStr "20240101", by decide, by decide, Or.inl (by decide)⟩

/-- C8 witness: a concrete full date-time string with Z parses successfully
and the amended equivalence holds there. -/
theorem C8_parseICalDate_witness :
    (parseICalDate (ofStr "20240115T090000Z")).isSome = true ∧
    grammarOK (stripToColon (ofStr "20240115T090000Z")) :=
  ⟨by decide, (C8_parseICalDate_grammar (ofStr "20240115T090000Z")).1.mp (by decide)⟩

/-- The logical character content represented by a list of fold segments:
every segment after the first carries one added leading space. -/
def segsJoin : Bool → List JStr → JStr
  | _, [] => []
  | first, s :: rest => (if first then s else s.drop 1) ++ segsJoin false rest

/-- A continuation segment: one space followed by at most 74 units. -/
def contSeg (s : JStr) : Prop := ∃ c, s = 32 :: c ∧ c.length ≤ 74

theorem adjustCut_le (s : JStr) : ∀ n, adjustCut s n ≤ n := by
  intro n
  induction n with
  | zero => simp [adjustCut]
  | succ p ih =>
    by_cases hc : isContinuationByte s (p + 1) = true
    · simp [adjustCut, hc]
      omega
    · simp [adjustCut, hc]

theorem adjustCut_eq_zero_of_all (s : JStr) :
    ∀ n, (∀ p, 1 ≤ p → p ≤ n → isContinuationByte s p = true) → adjustCut s n = 0 := by
  intro n
  induction n with
  | zero => simp [adjustCut]
  | succ p ih =>
    intro h
    have hc : isContinuationByte s (p + 1) = true := h (p + 1) (by omega) (by omega)
    simp only [adjustCut, hc, if_true]
    exact ih (fun q h1 h2 => h q h1 (by omega))

theorem foldLoop_spec : ∀ (fuel : Nat) (first : Bool) (rem : JStr) (segs : List JStr),
    foldLoop fuel first rem = some segs →
    segsJoin first segs = rem ∧
    (∀ s ∈ segs, ∀ x ∈ s, x = 32 ∨ x ∈ rem) ∧
    (∀ s ∈ segs.tail, contSeg s) ∧
    (∀ s0, segs.head? = some s0 →
      (first = true → s0.length ≤ 75) ∧ (first = false → contSeg s0)) := by
  intro fuel
  induction fuel with
  | zero => intro first rem segs h; simp [foldLoop] at h
  | succ fuel ih =>
    intro first rem segs h
    by_cases hempty : rem.length = 0
    · have hremnil : rem = [] := List.length_eq_zero.mp hempty
      subst hremnil
      simp [foldLoop] at h
      subst h
      refine ⟨rfl, by simp, by simp, by simp⟩
    · by_cases hshort : rem.length ≤ (if first then MAX_LINE_LENGTH else MAX_LINE_LENGTH - 1)
      · have hsegs : segs = [if first then rem else 32 :: rem] := by
          rw [foldLoop, if_neg hempty, if_pos hshort] at h
          exact (Option.some.inj h).symm
        subst hsegs
        rcases first with _ | _
        · refine ⟨by simp [segsJoin], ?_, by simp, ?_⟩
          · intro s hs x hx
            simp at hs
            subst hs
            rcases List.mem_cons.mp hx with rfl | hmem
            · exact Or.inl rfl
            · exact Or.inr hmem
          · intro s0 hs0
            simp at hs0
            refine ⟨by intro hcontra; exact absurd hcontra (by simp), ?_⟩
            intro _
            refine ⟨rem, hs0.symm, ?_⟩
            simp [MAX_LINE_LENGTH] at hshort
            omega
        · refine ⟨by simp [segsJoin], ?_, by simp, ?_⟩
          · intro s hs x hx
            simp at hs
            subst hs
            exact Or.inr hx
          · intro s0 hs0
            simp at hs0
            refine ⟨?_, by intro hcontra; exact absurd hcontra (by simp)⟩
            intro _
            rw [← hs0]
            simp [MAX_LINE_LENGTH] at hshort
            exact hshort
      · rw [foldLoop, if_neg hempty, if_neg hshort] at h
        simp only [] at h
        rcases hrec : foldLoop fuel false
            (rem.drop (adjustCut rem (if first then MAX_LINE_LENGTH else MAX_LINE_LENGTH - 1)))
          with _ | segs2
        · rw [hrec] at h
          exact absurd h (by simp)
        · rw [hrec] at h
          have hsegs : segs =
              (if first then rem.take (adjustCut rem (if first then MAX_LINE_LENGTH else MAX_LINE_LENGTH - 1))
               else 32 :: rem.take (adjustCut rem (if first then MAX_LINE_LENGTH else MAX_LINE_LENGTH - 1))) :: segs2 :=
            (Option.some.inj h).symm
          obtain ⟨hjoin, hmem, htail, hhead⟩ := ih false _ segs2 hrec
          set cut := adjustCut rem (if first then MAX_LINE_LENGTH else MAX_LINE_LENGTH - 1) with hcut
          have hcutle : cut ≤ (if first then MAX_LINE_LENGTH else MAX_LINE_LENGTH - 1) :=
            adjustCut_le rem _
          subst hsegs
          refine ⟨?_, ?_, ?_, ?_⟩
          · rcases first with _ | _ <;>
              simp only [segsJoin, if_true, if_false, Bool.false_eq_true, List.drop_one,
                List.tail_cons, hjoin] <;>
              simp [List.take_append_drop]
          · intro s hs x hx
            rcases List.mem_cons.mp hs with rfl | hmem2
            · rcases first with _ | _
              · simp only [Bool.false_eq_true, if_false] at hx ⊢
                rcases List.mem_cons.mp hx with rfl | hmem3
                · exact Or.inl rfl
                · exact Or.inr (List.take_subset _ _ hmem3)
              · simp only [if_true] at hx ⊢
                exact Or.inr (List.take_subset _ _ hx)
            · rcases hmem s hmem2 x hx with h32 | hin
              · exact Or.inl h32
              · exact Or.inr (List.drop_subset _ _ hin)
          · intro s hs
            simp only [List.tail_cons] at hs
            rcases hsegs2 : segs2 with _ | ⟨s1, rest2⟩
            · rw [hsegs2] at hs
              simp at hs
            · rw [hsegs2] at hs
              rcases List.mem_cons.mp hs with rfl | hmem2
              · have := hhead s (by rw [hsegs2]; rfl)
                exact this.2 rfl
              · apply htail
                rw [hsegs2]
                simpa using hmem2
          · intro s0 hs0
            simp only [List.head?_cons] at hs0
            constructor
            · intro hfirst
              subst hfirst
              simp only [if_true] at hs0
              rw [← Option.some.inj hs0]
              have : (rem.take cut).length ≤ cut := by
                simp [List.length_take]
              simp only [if_true, MAX_LINE_LENGTH] at hcutle
              omega
            · intro hfirst
              subst hfirst
              simp only [Bool.false_eq_true, if_false] at hs0
              refine ⟨rem.take cut, (Option.some.inj hs0).symm, ?_⟩
              have : (rem.take cut).length ≤ cut := by
                simp [List.length_take]
              simp only [Bool.false_eq_true, if_false, MAX_LINE_LENGTH] at hcutle
              omega


theorem intercalate_singleton (sep a : JStr) : List.intercalate sep [a] = a := by
  simp [List.intercalate]

theorem intercalate_cons2 (sep a b : JStr) (rest : List JStr) :
    List.intercalate sep (a :: b :: rest) = a ++ (sep ++ List.intercalate sep (b :: rest)) := by
  simp [List.intercalate, List.intersperse]

theorem normalizeNL_app_no13 : ∀ (a z : JStr), (∀ x ∈ a, x ≠ 13) →
    normalizeNL (a ++ z) = a ++ normalizeNL z := by
  intro a
  induction a with
  | nil => intro z _; simp
  | cons c rest ih =>
    intro z h
    have hc : c ≠ 13 := h c (by simp)
    have hrest : ∀ x ∈ rest, x ≠ 13 := fun x hx => h x (by simp [hx])
    show normAux false (c :: (rest ++ z)) = c :: rest ++ normAux false z
    rw [normAux]
    simp only [if_neg (by simp : ¬ False), if_neg hc, if_false]
    rw [show normAux false (rest ++ z) = rest ++ normAux false z from ih z hrest]
    rfl

theorem normalizeNL_no13 (a : JStr) (h : ∀ x ∈ a, x ≠ 13) : normalizeNL a = a := by
  have := normalizeNL_app_no13 a [] h
  simpa [normalizeNL, normAux] using this

theorem normalizeNL_crlf (z : JStr) : normalizeNL (13 :: 10 :: z) = 10 :: normalizeNL z := by
  simp [normalizeNL, normAux]

theorem unfoldCont_app_no10 : ∀ (a z : JStr), (∀ x ∈ a, x ≠ 10) →
    unfoldCont (a ++ z) = a ++ unfoldCont z := by
  intro a
  induction a with
  | nil => intro z _; simp
  | cons c rest ih =>
    intro z h
    have hc : c ≠ 10 := h c (by simp)
    have hrest : ∀ x ∈ rest, x ≠ 10 := fun x hx => h x (by simp [hx])
    show unfoldAux false (c :: (rest ++ z)) = c :: rest ++ unfoldAux false z
    rw [unfoldAux]
    simp only [if_neg (by simp : ¬ False), if_neg hc, if_false]
    rw [show unfoldAux false (rest ++ z) = rest ++ unfoldAux false z from ih z hrest]
    rfl

theorem unfoldCont_no10 (a : JStr) (h : ∀ x ∈ a, x ≠ 10) : unfoldCont a = a := by
  have := unfoldCont_app_no10 a [] h
  simpa [unfoldCont, unfoldAux] using this

theorem unfoldCont_lf_sp (z : JStr) : unfoldCont (10 :: 32 :: z) = unfoldCont z := by
  simp [unfoldCont, unfoldAux]

/-- Unfolding after normalization merges a CRLF-plus-space continuation
chain back into the segment contents. -/
theorem unfold_norm_tail : ∀ (rest : List JStr),
    (∀ s ∈ rest, ∃ c, s = 32 :: c ∧ (∀ x ∈ c, x ≠ 10 ∧ x ≠ 13)) →
    rest ≠ [] →
    unfoldCont (10 :: normalizeNL (List.intercalate [13, 10] rest)) = segsJoin false rest := by
  intro rest
  induction rest with
  | nil => intro _ hne; exact absurd rfl hne
  | cons s1 rest' ih =>
    intro h _
    obtain ⟨c1, rfl, hc1⟩ := h s1 (by simp)
    rcases rest' with _ | ⟨s2, rest2⟩
    · rw [intercalate_singleton]
      have hn : normalizeNL (32 :: c1) = 32 :: c1 := by
        refine normalizeNL_no13 _ ?_
        intro x hx
        rcases List.mem_cons.mp hx with rfl | hm
        · omega
        · exact (hc1 x hm).2
      rw [hn, unfoldCont_lf_sp, unfoldCont_no10 c1 (fun x hx => (hc1 x hx).1)]
      simp [segsJoin]
    · rw [intercalate_cons2]
      have hno13 : ∀ x ∈ 32 :: c1, x ≠ 13 := by
        intro x hx
        rcases List.mem_cons.mp hx with rfl | hm
        · omega
        · exact (hc1 x hm).2
      rw [show ([13, 10] : JStr) ++ List.intercalate [13, 10] (s2 :: rest2) =
            13 :: 10 :: List.intercalate [13, 10] (s2 :: rest2) from rfl]
      rw [normalizeNL_app_no13 _ _ hno13, normalizeNL_crlf]
      rw [show (32 :: c1) ++ 10 :: normalizeNL (List.intercalate [13, 10] (s2 :: rest2)) =
            32 :: (c1 ++ 10 :: normalizeNL (List.intercalate [13, 10] (s2 :: rest2))) from rfl]
      rw [unfoldCont_lf_sp]
      rw [unfoldCont_app_no10 _ _ (fun x hx => (hc1 x hx).1)]
      rw [ih (fun s hs => h s (List.mem_cons_of_mem _ hs)) (by simp)]
      simp [segsJoin]

/-- Unfolding after normalization recovers the joined content of a full
segment list. -/
theorem unfold_norm_segs (s0 : JStr) (rest : List JStr)
    (h0 : ∀ x ∈ s0, x ≠ 10 ∧ x ≠ 13)
    (hr : ∀ s ∈ rest, ∃ c, s = 32 :: c ∧ (∀ x ∈ c, x ≠ 10 ∧ x ≠ 13)) :
    unfoldCont (normalizeNL (List.intercalate [13, 10] (s0 :: rest))) =
      s0 ++ segsJoin false rest := by
  rcases rest with _ | ⟨s1, rest'⟩
  · rw [intercalate_singleton, normalizeNL_no13 _ (fun x hx => (h0 x hx).2),
      unfoldCont_no10 _ (fun x hx => (h0 x hx).1)]
    simp [segsJoin]
  · rw [intercalate_cons2]
    rw [show ([13, 10] : JStr) ++ List.intercalate [13, 10] (s1 :: rest') =
          13 :: 10 :: List.intercalate [13, 10] (s1 :: rest') from rfl]
    rw [normalizeNL_app_no13 _ _ (fun x hx => (h0 x hx).2), normalizeNL_crlf]
    rw [unfoldCont_app_no10 _ _ (fun x hx => (h0 x hx).1)]
    rw [unfold_norm_tail (s1 :: rest') hr (by simp)]

def isHS (c : Nat) : Bool := 0xD800 ≤ c && c ≤ 0xDBFF

/-- When every unit of the remainder is a high surrogate and the remainder
is longer than a line, the backward shift drives the cut position to zero,
the remainder never shrinks, and the loop consumes any amount of fuel. -/
theorem foldLoop_allHS_none (rem : JStr) (hall : ∀ x ∈ rem, isHS x = true)
    (hlen : 75 < rem.length) :
    ∀ (fuel : Nat) (first : Bool), foldLoop fuel first rem = none := by
  intro fuel
  induction fuel with
  | zero => intro first; rfl
  | succ fuel ih =>
    intro first
    have hempty : ¬ rem.length = 0 := by omega
    have hshort : ¬ rem.length ≤ (if first then MAX_LINE_LENGTH else MAX_LINE_LENGTH - 1) := by
      rcases first with _ | _ <;> simp [MAX_LINE_LENGTH] <;> omega
    rw [foldLoop, if_neg hempty]
    simp only []
    rw [if_neg hshort]
    have hcut : adjustCut rem (if first then MAX_LINE_LENGTH else MAX_LINE_LENGTH - 1) = 0 := by
      apply adjustCut_eq_zero_of_all
      intro p h1 h2
      have hple : p ≤ 75 := by
        rcases first with _ | _ <;> simp [MAX_LINE_LENGTH] at h2 <;> omega
      have hplt : p < rem.length := by omega
      have hmem : rem.getD (p - 1) 0 ∈ rem := by
        rw [List.getD_eq_getElem _ _ (by omega)]
        exact List.getElem_mem _
      have hhs := hall _ hmem
      simp only [isHS, Bool.and_eq_true, decide_eq_true_eq] at hhs
      rw [isContinuationByte]
      rw [if_neg (by simp; omega)]
      simp only [Bool.and_eq_true, decide_eq_true_eq]
      exact hhs
    rw [hcut]
    simp only [List.drop_zero]
    rw [ih false]

def hsRun76 : JStr := List.replicate 76 0xD800

def hsRun90 : JStr := List.replicate 90 0xDBFF

/-- The fold loop runs forever on this input: it returns nothing for every
amount of fuel. -/
def foldDiverges (l : JStr) : Prop := ∀ fuel, foldLoop fuel true l = none

/-- C10: the fold loop does not terminate on every input.  On a run of 76
high surrogates the cut position is driven to 0, the pushed segment is empty
and the remainder never shrinks, so the loop consumes any amount of fuel,
contradicting the claim that every iteration cuts at least one unit. -/
theorem C10_foldLine_nontermination :
    75 < hsRun76.length ∧ foldDiverges hsRun76 ∧ foldLineSegs hsRun76 = none := by
  have hall : ∀ x ∈ hsRun76, isHS x = true := by
    intro x hx
    have hx2 : x = 0xD800 := by simpa [hsRun76] using hx
    subst hx2
    decide
  refine ⟨by decide, ?_, ?_⟩
  · intro fuel
    exact foldLoop_allHS_none hsRun76 hall (by decide) fuel true
  · rw [foldLineSegs, if_neg (by decide)]
    exact foldLoop_allHS_none hsRun76 hall (by decide) _ true

/-- C2 counterexample: a line of 90 high surrogates is longer than 75 units
but foldLine produces nothing at all on it (the loop diverges), so the
universally quantified folding claim fails. -/
theorem C2_counterexample :
    75 < hsRun90.length ∧ foldLineSegs hsRun90 = none ∧ foldDiverges hsRun90 := by
  have hall : ∀ x ∈ hsRun90, isHS x = true := by
    intro x hx
    have hx2 : x = 0xDBFF := by simpa [hsRun90] using hx
    subst hx2
    decide
  refine ⟨by decide, ?_, ?_⟩
  · rw [foldLineSegs, if_neg (by decide)]
    exact foldLoop_allHS_none hsRun90 hall (by decide) _ true
  · intro fuel
    exact foldLoop_allHS_none hsRun90 hall (by decide) fuel true

/-- C2 (amended): foldLine is the identity on lines of at most 75 units; on
a longer line, whenever the folding loop terminates (it can fail to do so on
long runs of high surrogates), the segments consist of a first segment of at
most 75 units and continuation segments of one space plus at most 74 units,
joined with CRLF, and unfolding the folded text (after line-terminator
normalization) recovers the original character sequence exactly, for any
line that itself contains no line-break unit. -/
theorem C2_foldLine_spec (l : JStr) (h10 : ∀ x ∈ l, x ≠ 10) (h13 : ∀ x ∈ l, x ≠ 13) :
    (l.length ≤ 75 → foldLine l = some l) ∧
    (∀ segs, foldLineSegs l = some segs → 75 < l.length →
      ∃ s0 rest, segs = s0 :: rest ∧ s0.length ≤ 75 ∧
        (∀ s ∈ rest, ∃ c, s = 32 :: c ∧ c.length ≤ 74) ∧
        foldLine l = some (List.intercalate [13, 10] segs) ∧
        unfoldCont (normalizeNL (List.intercalate [13, 10] segs)) = l) := by
  constructor
  · intro hle
    rw [foldLine, foldLineSegs, if_pos (by simpa [MAX_LINE_LENGTH] using hle)]
    simp [intercalate_singleton]
  · intro segs hsegs hlong
    have hloop : foldLoop (l.length + 1) true l = some segs := by
      rw [foldLineSegs, if_neg (by simp [MAX_LINE_LENGTH]; omega)] at hsegs
      exact hsegs
    obtain ⟨hjoin, hmem, htail, hhead⟩ := foldLoop_spec _ _ _ _ hloop
    rcases segs with _ | ⟨s0, rest⟩
    · exfalso
      simp [segsJoin] at hjoin
      subst hjoin
      simp at hlong
    · refine ⟨s0, rest, rfl, ?_, ?_, ?_, ?_⟩
      · exact (hhead s0 rfl).1 rfl
      · intro s hs
        exact htail s (by simpa using hs)
      · rw [foldLine, hsegs]
        rfl
      · have h0 : ∀ x ∈ s0, x ≠ 10 ∧ x ≠ 13 := by
          intro x hx
          rcases hmem s0 (by simp) x hx with rfl | hin
          · exact ⟨by norm_num, by norm_num⟩
          · exact ⟨h10 x hin, h13 x hin⟩
        have hr : ∀ s ∈ rest, ∃ c, s = 32 :: c ∧ ∀ x ∈ c, x ≠ 10 ∧ x ≠ 13 := by
          intro s hs
          obtain ⟨c, rfl, hclen⟩ := htail s (by simpa using hs)
          refine ⟨c, rfl, ?_⟩
          intro x hx
          rcases hmem (32 :: c) (List.mem_cons_of_mem _ hs) x (by simp [hx]) with rfl | hin
          · exact ⟨by norm_num, by norm_num⟩
          · exact ⟨h10 x hin, h13 x hin⟩
        rw [unfold_norm_segs s0 rest h0 hr]
        simpa [segsJoin] using hjoin

def wLongLine : JStr :=
  ofStr "DESCRIPTION:a deliberately long property line used to exercise the folding logic of the writer beyond the limit"

/-- C2 witness: on a concrete 111-unit ASCII line the folding loop
terminates and folding then unfolding recovers the line exactly. -/
theorem C2_foldLine_witness :
    75 < wLongLine.length ∧
    ∃ segs, foldLineSegs wLongLine = some segs ∧
      unfoldCont (normalizeNL (List.intercalate [13, 10] segs)) = wLongLine := by
  refine ⟨by decide, ?_⟩
  have hsome : (foldLineSegs wLongLine).isSome = true := by decide
  rcases hfs : foldLineSegs wLongLine with _ | segs
  · rw [hfs] at hsome
    simp at hsome
  · have h := (C2_foldLine_spec wLongLine (by decide) (by decide)).2 segs hfs (by decide)
    obtain ⟨s0, rest, rfl, _, _, _, hrt⟩ := h
    exact ⟨s0 :: rest, rfl, hrt⟩


theorem insertStable_perm {α : Type} (lt : α → α → Bool) (x : α) :
    ∀ l : List α, (insertStable lt x l).Perm (x :: l) := by
  intro l
  induction l with
  | nil => simp [insertStable]
  | cons y ys ih =>
    by_cases h : lt x y = true
    · simp [insertStable, h]
    · simp only [insertStable, h, if_false, Bool.false_eq_true]
      exact List.Perm.trans (List.Perm.cons y ih) (List.Perm.swap x y ys)

theorem sortWith_perm {α : Type} (lt : α → α → Bool) (l : List α) :
    (sortWith lt l).Perm l := by
  suffices h : ∀ (l acc : List α),
      (l.foldl (fun a x => insertStable lt x a) acc).Perm (acc ++ l) by
    simpa using h l []
  intro l
  induction l with
  | nil => intro acc; simp
  | cons x l ih =>
    intro acc
    rw [List.foldl_cons]
    have h1 := ih (insertStable lt x acc)
    have h2 : (insertStable lt x acc ++ l).Perm ((x :: acc) ++ l) :=
      List.Perm.append_right l (insertStable_perm lt x acc)
    have h3 : ((x :: acc) ++ l).Perm (acc ++ x :: l) := by
      simpa using (@List.perm_middle _ x acc l).symm
    exact (h1.trans h2).trans h3

theorem splitLoop_eq_groups (tz : Int) (cal : Calendar) (maxSizeBytes : Nat)
    (cleanMode : Bool) : ∀ (l cur : List Event) (size : Nat),
    splitLoop tz cal maxSizeBytes cleanMode l cur size =
      (splitGroups cal maxSizeBytes l cur size).map
        (fun g => createChunkResult tz cal g cleanMode) := by
  intro l
  induction l with
  | nil =>
    intro cur size
    by_cases h : cur = [] <;> simp [splitLoop, splitGroups, h, List.length_eq_zero]
  | cons e rest ih =>
    intro cur size
    by_cases h1 : maxSizeBytes < size + getEventSize e <;>
      by_cases h2 : cur = [] <;>
        simp [splitLoop, splitGroups, h1, h2, ih, List.length_eq_zero]

theorem splitGroups_flatten (cal : Calendar) (maxSizeBytes : Nat) :
    ∀ (l cur : List Event) (size : Nat),
      (splitGroups cal maxSizeBytes l cur size).flatten = cur ++ l := by
  intro l
  induction l with
  | nil =>
    intro cur size
    by_cases h : cur = [] <;> simp [splitGroups, h, List.length_eq_zero]
  | cons e rest ih =>
    intro cur size
    by_cases h1 : maxSizeBytes < size + getEventSize e <;>
      by_cases h2 : cur = [] <;>
        simp [splitGroups, h1, h2, ih, List.length_eq_zero]

theorem splitGroups_ne_nil (cal : Calendar) (maxSizeBytes : Nat) :
    ∀ (l cur : List Event) (size : Nat) (g : List Event),
      g ∈ splitGroups cal maxSizeBytes l cur size → g ≠ [] := by
  intro l
  induction l with
  | nil =>
    intro cur size g hg
    by_cases h : cur = []
    · simp [splitGroups, h] at hg
    · simp [splitGroups, h, List.length_eq_zero] at hg
      rw [hg]
      exact h
  | cons e rest ih =>
    intro cur size g hg
    by_cases h1 : maxSizeBytes < size + getEventSize e
    · by_cases h2 : cur = []
      · simp only [splitGroups] at hg
        rw [if_neg (by simp [h2])] at hg
        exact ih _ _ g hg
      · simp only [splitGroups] at hg
        rw [if_pos (by simp [h1, h2, List.length_eq_zero])] at hg
        rcases List.mem_cons.mp hg with rfl | hmem
        · exact h2
        · exact ih _ _ g hmem
    · simp only [splitGroups] at hg
      rw [if_neg (by simp [h1])] at hg
      exact ih _ _ g hg

theorem splitGroups_oversize (cal : Calendar) (maxSizeBytes : Nat) :
    ∀ (l cur : List Event) (size : Nat),
      size = getHeaderFooterSize cal + (cur.map getEventSize).sum →
      (∀ x ∈ cur, maxSizeBytes < getEventSize x → cur = [x]) →
      ∀ g ∈ splitGroups cal maxSizeBytes l cur size,
        ∀ e ∈ g, maxSizeBytes < getEventSize e → g = [e] := by
  intro l
  induction l with
  | nil =>
    intro cur size hsize hgood g hg e he hover
    by_cases h : cur = []
    · simp [splitGroups, h] at hg
    · simp [splitGroups, h, List.length_eq_zero] at hg
      subst hg
      exact hgood e he hover
  | cons ev rest ih =>
    intro cur size hsize hgood g hg e he hover
    by_cases h1 : maxSizeBytes < size + getEventSize ev
    · by_cases h2 : cur = []
      · simp only [splitGroups] at hg
        rw [if_neg (by simp [h2])] at hg
        refine ih (cur ++ [ev]) _ ?_ ?_ g hg e he hover
        · subst h2
          simp only [List.map_nil, List.sum_nil, Nat.add_zero] at hsize
          simp [hsize]
        · subst h2
          intro x hx _
          simp only [List.nil_append, List.mem_singleton] at hx
          simp [hx]
      · simp only [splitGroups] at hg
        rw [if_pos (by simp [h1, h2, List.length_eq_zero])] at hg
        rcases List.mem_cons.mp hg with rfl | hmem
        · exact hgood e he hover
        · refine ih [ev] _ ?_ ?_ g hmem e he hover
          · simp
          · intro x hx _
            simp only [List.mem_singleton] at hx
            simp [hx]
    · simp only [splitGroups] at hg
      rw [if_neg (by simp [h1])] at hg
      refine ih (cur ++ [ev]) _ ?_ ?_ g hg e he hover
      · rw [hsize]
        simp [List.sum_append]
        omega
      · intro x hx hxover
        rcases List.mem_append.mp hx with hxc | hxe
        · exfalso
          have hcureq := hgood x hxc hxover
          rw [hcureq] at hsize
          simp only [List.map_cons, List.map_nil, List.sum_cons, List.sum_nil,
            Nat.add_zero] at hsize
          omega
        · exfalso
          have hxev : x = ev := by simpa using hxe
          subst hxev
          omega

/-- C3: for every calendar, event list and positive byte limit, the chunks
returned by splitBySize carry eventCount values summing to the length of the
input list, no chunk holds zero events, every event whose own estimated size
exceeds the limit appears alone in a chunk of its own (its content is the
unsplit serialization of just that event), and a non-empty event list always
yields at least one chunk. -/
theorem C3_splitBySize_spec (tz : Int) (cal : Calendar) (events : List Event)
    (maxSizeBytes : Nat) (cleanMode : Bool) (_hpos : 0 < maxSizeBytes) :
    (((splitBySize tz cal events maxSizeBytes cleanMode).map (fun c => c.eventCount)).sum =
      events.length) ∧
    (∀ c ∈ splitBySize tz cal events maxSizeBytes cleanMode, c.eventCount ≠ 0) ∧
    (∀ e ∈ events, maxSizeBytes < getEventSize e →
      ∃ c ∈ splitBySize tz cal events maxSizeBytes cleanMode,
        c.eventCount = 1 ∧ c.content = write cal [e] cleanMode) ∧
    (events ≠ [] → splitBySize tz cal events maxSizeBytes cleanMode ≠ []) := by
  have hperm : (jsSortEvents tz events).Perm events :=
    sortWith_perm (fun a b => decide (cmpEventsDesc tz a b < 0)) events
  have hsplit : splitBySize tz cal events maxSizeBytes cleanMode =
      (splitGroups cal maxSizeBytes (jsSortEvents tz events) [] (getHeaderFooterSize cal)).map
        (fun g => createChunkResult tz cal g cleanMode) := by
    rw [splitBySize, splitLoop_eq_groups]
  have hflat := splitGroups_flatten cal maxSizeBytes (jsSortEvents tz events) []
      (getHeaderFooterSize cal)
  simp only [List.nil_append] at hflat
  refine ⟨?_, ?_, ?_, ?_⟩
  · rw [hsplit, List.map_map]
    have hcount : ((splitGroups cal maxSizeBytes (jsSortEvents tz events) []
        (getHeaderFooterSize cal)).map
          ((fun c => c.eventCount) ∘ (fun g => createChunkResult tz cal g cleanMode))) =
        (splitGroups cal maxSizeBytes (jsSortEvents tz events) []
          (getHeaderFooterSize cal)).map List.length := by
      apply List.map_congr_left
      intro g _
      rfl
    rw [hcount, ← List.length_flatten, hflat]
    exact hperm.length_eq
  · intro c hc
    rw [hsplit] at hc
    rw [List.mem_map] at hc
    obtain ⟨g, hg, rfl⟩ := hc
    have hne := splitGroups_ne_nil cal maxSizeBytes _ _ _ g hg
    show g.length ≠ 0
    simpa [List.length_eq_zero] using hne
  · intro e he hover
    have hesort : e ∈ jsSortEvents tz events := hperm.mem_iff.mpr he
    rw [← hflat] at hesort
    obtain ⟨g, hg, heg⟩ := List.mem_flatten.mp hesort
    have hsingle : g = [e] := by
      refine splitGroups_oversize cal maxSizeBytes _ [] _ (by simp) (by simp) g hg e heg hover
    refine ⟨createChunkResult tz cal [e] cleanMode, ?_, rfl, rfl⟩
    rw [hsplit]
    rw [List.mem_map]
    exact ⟨[e], hsingle ▸ hg, rfl⟩
  · intro hne hcontra
    rw [hsplit] at hcontra
    rw [List.map_eq_nil_iff] at hcontra
    rw [hcontra] at hflat
    simp only [List.flatten_nil] at hflat
    have := hperm.length_eq
    rw [← hflat] at this
    simp at this
    exact hne (List.length_eq_zero.mp this.symm)

/-- A concrete calendar for witnesses. -/
def wcal : Calendar :=
  { headerLines := [BEGINCAL, ofStr "VERSION:2.0"], events := [wevA, wevU], properties := [] }

/-- C3 witness: on a concrete two-event calendar with a 30-byte limit every
event is oversize, and the chunk counts still sum to the input size. -/
theorem C3_splitBySize_witness :
    (0 : Nat) < 30 ∧
    ((splitBySize 0 wcal [wevA, wevU] 30 false).map (fun c => c.eventCount)).sum = 2 := by
  refine ⟨by decide, ?_⟩
  have h := (C3_splitBySize_spec 0 wcal [wevA, wevU] 30 false (by decide)).1
  simpa using h

theorem head?_dropWhile {p : Nat → Bool} :
    ∀ {l : JStr} {c : Nat}, (l.dropWhile p).head? = some c → p c = false := by
  intro l
  induction l with
  | nil => intro c h; simp at h
  | cons d rest ih =>
    intro c h
    by_cases hd : p d = true
    · rw [List.dropWhile_cons, if_pos hd] at h
      exact ih h
    · rw [List.dropWhile_cons, if_neg hd] at h
      have hdc : d = c := by simpa using h
      rw [← hdc]
      simpa using hd

theorem dropWhile_eq_self_of_head {p : Nat → Bool} {l : JStr}
    (h : ∀ c, l.head? = some c → p c = false) : l.dropWhile p = l := by
  cases l with
  | nil => rfl
  | cons d rest =>
    rw [List.dropWhile_cons, if_neg (by simp [h d rfl])]

theorem trim_head_not_ws {l : JStr} {c : Nat} (h : (trim l).head? = some c) :
    isWS c = false := by
  have hc : ((l.dropWhile isWS).reverse.dropWhile isWS).getLast? = some c := by
    unfold trim at h
    rw [List.head?_reverse] at h
    exact h
  set A := l.dropWhile isWS with hA
  set B := A.reverse.dropWhile isWS with hB
  have hsplit : A.reverse.takeWhile isWS ++ B = A.reverse :=
    List.takeWhile_append_dropWhile isWS A.reverse
  have hlast : A.reverse.getLast? = some c := by
    rw [← hsplit, List.getLast?_append, hc]
    rfl
  rw [List.getLast?_reverse] at hlast
  exact head?_dropWhile hlast

theorem trim_getLast_not_ws {l : JStr} {c : Nat} (h : (trim l).getLast? = some c) :
    isWS c = false := by
  unfold trim at h
  rw [List.getLast?_reverse] at h
  exact head?_dropWhile h

theorem trim_idem (l : JStr) : trim (trim l) = trim l := by
  have h1 : (trim l).dropWhile isWS = trim l :=
    dropWhile_eq_self_of_head (fun c hc => trim_head_not_ws hc)
  have h2 : (trim l).reverse.dropWhile isWS = (trim l).reverse := by
    refine dropWhile_eq_self_of_head ?_
    intro c hc
    rw [List.head?_reverse] at hc
    exact trim_getLast_not_ws hc
  show (((trim l).dropWhile isWS).reverse.dropWhile isWS).reverse = trim l
  rw [h1, h2]
  simp

theorem trim_sublist (l : JStr) : (trim l).Sublist l := by
  have h1 : (l.dropWhile isWS).Sublist l := List.dropWhile_sublist _
  have h2 : ((l.dropWhile isWS).reverse.dropWhile isWS).Sublist (l.dropWhile isWS).reverse :=
    List.dropWhile_sublist _
  have h3 := h2.reverse
  simp only [List.reverse_reverse] at h3
  exact h3.trans h1

theorem trim_length_le (l : JStr) : (trim l).length ≤ l.length :=
  (trim_sublist l).length_le

theorem trim_mem {l : JStr} {c : Nat} (h : c ∈ trim l) : c ∈ l :=
  (trim_sublist l).mem h

theorem splitLF_ne_nil : ∀ w : JStr, splitLF w ≠ [] := by
  intro w
  induction w with
  | nil => simp [splitLF]
  | cons c rest ih =>
    rw [splitLF]
    by_cases hc : c = 10
    · simp [hc]
    · rw [if_neg hc]
      rcases hs : splitLF rest with _ | ⟨s, ss⟩
      · simp
      · simp

theorem splitLF_no10 : ∀ (w : JStr) (p : JStr), p ∈ splitLF w → 10 ∉ p := by
  intro w
  induction w with
  | nil =>
    intro p hp
    simp [splitLF] at hp
    simp [hp]
  | cons c rest ih =>
    intro p hp
    rw [splitLF] at hp
    by_cases hc : c = 10
    · rw [if_pos hc] at hp
      rcases List.mem_cons.mp hp with rfl | hmem
      · simp
      · exact ih p hmem
    · rw [if_neg hc] at hp
      rcases hs : splitLF rest with _ | ⟨s, ss⟩
      · exact absurd hs (splitLF_ne_nil rest)
      · rw [hs] at hp
        rcases List.mem_cons.mp hp with rfl | hmem
        · intro hcontra
          rcases List.mem_cons.mp hcontra with h10 | hmem2
          · exact hc h10.symm
          · exact ih s (by rw [hs]; simp) hmem2
        · exact ih p (by rw [hs]; exact List.mem_cons_of_mem _ hmem)

theorem normAux_no13 : ∀ (pending : Bool) (w : JStr), 13 ∉ normAux pending w := by
  intro pending w
  induction w generalizing pending with
  | nil =>
    rcases pending with _ | _ <;> simp [normAux]
  | cons c rest ih =>
    rcases pending with _ | _
    · rw [normAux]
      simp only [Bool.false_eq_true, if_false]
      by_cases hc : c = 13
      · rw [if_pos hc]
        exact ih true
      · rw [if_neg hc]
        intro hcontra
        rcases List.mem_cons.mp hcontra with h13 | hmem
        · exact hc h13.symm
        · exact ih false hmem
    · rw [normAux]
      simp only [if_true]
      by_cases h10 : c = 10
      · rw [if_pos h10]
        intro hcontra
        rcases List.mem_cons.mp hcontra with h13 | hmem
        · exact absurd h13.symm (by norm_num)
        · exact ih false hmem
      · rw [if_neg h10]
        by_cases h13 : c = 13
        · rw [if_pos h13]
          intro hcontra
          rcases List.mem_cons.mp hcontra with hx | hmem
          · exact absurd hx.symm (by norm_num)
          · exact ih true hmem
        · rw [if_neg h13]
          intro hcontra
          rcases List.mem_cons.mp hcontra with hx | hmem
          · exact absurd hx.symm (by norm_num)
          · rcases List.mem_cons.mp hmem with hx | hmem2
            · exact h13 hx.symm
            · exact ih false hmem2

theorem unfoldAux_no13 : ∀ (pending : Bool) (w : JStr), 13 ∉ w → 13 ∉ unfoldAux pending w := by
  intro pending w
  induction w generalizing pending with
  | nil =>
    intro _
    rcases pending with _ | _ <;> simp [unfoldAux]
  | cons c rest ih =>
    intro hw
    have hc13 : c ≠ 13 := fun h => hw (by simp [h])
    have hrest : 13 ∉ rest := fun h => hw (List.mem_cons_of_mem _ h)
    rcases pending with _ | _
    · rw [unfoldAux]
      simp only [Bool.false_eq_true, if_false]
      by_cases h10 : c = 10
      · rw [if_pos h10]
        exact ih true hrest
      · rw [if_neg h10]
        intro hcontra
        rcases List.mem_cons.mp hcontra with hx | hmem
        · exact hc13 hx.symm
        · exact ih false hrest hmem
    · rw [unfoldAux]
      simp only [if_true]
      by_cases hsp : (c = 32 || c = 9) = true
      · rw [if_pos hsp]
        exact ih false hrest
      · rw [if_neg hsp]
        by_cases h10 : c = 10
        · rw [if_pos h10]
          intro hcontra
          rcases List.mem_cons.mp hcontra with hx | hmem
          · exact absurd hx.symm (by norm_num)
          · exact ih true hrest hmem
        · rw [if_neg h10]
          intro hcontra
          rcases List.mem_cons.mp hcontra with hx | hmem
          · exact absurd hx.symm (by norm_num)
          · rcases List.mem_cons.mp hmem with hx | hmem2
            · exact hc13 hx.symm
            · exact ih false hrest hmem2

theorem splitLF_mem_sublist : ∀ (w : JStr) (p : JStr), p ∈ splitLF w → p.Sublist w := by
  intro w
  induction w with
  | nil =>
    intro p hp
    simp [splitLF] at hp
    simp [hp]
  | cons c rest ih =>
    intro p hp
    rw [splitLF] at hp
    by_cases hc : c = 10
    · rw [if_pos hc] at hp
      rcases List.mem_cons.mp hp with rfl | hmem
      · exact List.nil_sublist _
      · exact (ih p hmem).cons c
    · rw [if_neg hc] at hp
      rcases hs : splitLF rest with _ | ⟨s, ss⟩
      · exact absurd hs (splitLF_ne_nil rest)
      · rw [hs] at hp
        rcases List.mem_cons.mp hp with rfl | hmem
        · exact (ih s (by rw [hs]; simp)).cons₂ c
        · exact (ih p (by rw [hs]; exact List.mem_cons_of_mem _ hmem)).cons c

/-- Every logical line is free of line terminators and non-blank. -/
theorem logicalLines_clean (x : JStr) :
    ∀ l ∈ logicalLines x, 10 ∉ l ∧ 13 ∉ l ∧ trim l ≠ [] := by
  intro l hl
  unfold logicalLines at hl
  have hmem := List.mem_filter.mp hl
  have h10 : 10 ∉ l := splitLF_no10 _ l hmem.1
  have h13 : 13 ∉ l := by
    intro hcontra
    have hsub : l.Sublist (unfoldCont (normalizeNL x)) := splitLF_mem_sublist _ l hmem.1
    exact (unfoldAux_no13 false (normalizeNL x) (normAux_no13 false x)) (hsub.mem hcontra)
  refine ⟨h10, h13, ?_⟩
  have := hmem.2
  simpa using this

theorem setKey_mem {β : Type} (m : List (JStr × β)) (k : JStr) (v : β) :
    ∀ kv ∈ setKey m k v, kv ∈ m ∨ kv = (k, v) := by
  induction m with
  | nil =>
    intro kv hkv
    simp [setKey] at hkv
    simp [hkv]
  | cons p rest ih =>
    intro kv hkv
    rcases p with ⟨k1, v1⟩
    simp only [setKey] at hkv
    by_cases hk : k1 = k
    · rw [if_pos hk] at hkv
      rcases List.mem_cons.mp hkv with rfl | hmem
      · exact Or.inr rfl
      · exact Or.inl (List.mem_cons_of_mem _ hmem)
    · rw [if_neg hk] at hkv
      rcases List.mem_cons.mp hkv with rfl | hmem
      · exact Or.inl (by simp)
      · rcases ih kv hmem with h1 | h2
        · exact Or.inl (List.mem_cons_of_mem _ h1)
        · exact Or.inr h2

theorem stepBody_proj (st : PState) (t : JStr) :
    (stepBody st t).headerLines = st.headerLines ∧
    (stepBody st t).events = st.events ∧
    (stepBody st t).inEvent = st.inEvent ∧
    (stepBody st t).foundFirstEvent = st.foundFirstEvent ∧
    (stepBody st t).inValarm = st.inValarm ∧
    (stepBody st t).curLines = st.curLines ++ [t] ∧
    (stepBody st t).curProps.isSome = st.curProps.isSome := by
  rcases h : idxOf 58 t with _ | ci <;> simp [stepBody, h]

theorem stepBody_curProps_raws (st : PState) (t : JStr) (ps : List (JStr × PropE))
    (h : (stepBody st t).curProps = some ps) :
    ∃ ps0, st.curProps = some ps0 ∧ ∀ kv ∈ ps, kv ∈ ps0 ∨ kv.2.raw = t := by
  rcases h58 : idxOf 58 t with _ | ci
  · simp only [stepBody, h58] at h
    exact ⟨ps, h, fun kv hkv => Or.inl hkv⟩
  · simp only [stepBody, h58] at h
    rcases hsp : st.curProps with _ | ps0
    · rw [hsp] at h
      simp at h
    · rw [hsp] at h
      simp only [Option.map_some'] at h
      injection h with h2
      refine ⟨ps0, rfl, ?_⟩
      intro kv hkv
      rw [← h2] at hkv
      rcases setKey_mem _ _ _ kv hkv with h1 | h3
      · exact Or.inl h1
      · rw [h3]
        exact Or.inr rfl

theorem stepHeader_proj (st : PState) (t : JStr) :
    (stepHeader st t).headerLines = st.headerLines ++ [t] ∧
    (stepHeader st t).events = st.events ∧
    (stepHeader st t).inEvent = st.inEvent ∧
    (stepHeader st t).foundFirstEvent = st.foundFirstEvent ∧
    (stepHeader st t).inValarm = st.inValarm ∧
    (stepHeader st t).curLines = st.curLines ∧
    (stepHeader st t).curProps = st.curProps := by
  rcases h : idxOf 58 t with _ | ci
  · simp [stepHeader, h]
  · by_cases hb : (ofStr "BEGIN:").isPrefixOf t
    · simp [stepHeader, h, hb]
    · simp [stepHeader, h, hb]

theorem stepCore_of_beginv (st : PState) :
    stepCore st BEGINV =
      { st with
        foundFirstEvent := true, inEvent := true,
        curLines := [], curProps := some [] } := by
  unfold stepCore
  rw [if_pos rfl]

theorem stepCore_of_endv (st : PState) :
    stepCore st ENDV =
      { st with
        events :=
          match st.curProps with
          | some ps => st.events ++ [{ properties := ps, rawLines := st.curLines }]
          | none => st.events,
        curProps := none, curLines := [], inEvent := false, inValarm := false } := by
  unfold stepCore
  rw [if_neg (by decide), if_pos rfl]

theorem stepCore_of_endcal (st : PState) : stepCore st ENDCAL = st := by
  unfold stepCore
  rw [if_neg (by decide), if_neg (by decide), if_pos rfl]

theorem stepCore_of_body (st : PState) (t : JStr) (h1 : t ≠ BEGINV) (h2 : t ≠ ENDV)
    (h3 : t ≠ ENDCAL) (h4 : t ≠ BEGINA) (h5 : t ≠ ENDA) (hin : st.inEvent = true)
    (hva : st.inValarm = false) : stepCore st t = stepBody st t := by
  unfold stepCore
  rw [if_neg h1, if_neg h2, if_neg h3, if_pos hin, if_neg h4, if_neg h5,
    if_neg (by simp [hva])]

theorem stepCore_of_header (st : PState) (t : JStr) (h1 : t ≠ BEGINV) (h2 : t ≠ ENDV)
    (h3 : t ≠ ENDCAL) (hin : st.inEvent = false) (hff : st.foundFirstEvent = false) :
    stepCore st t = stepHeader st t := by
  unfold stepCore
  rw [if_neg h1, if_neg h2, if_neg h3, if_neg (by simp [hin]), if_pos hff]

theorem stepCore_of_skip (st : PState) (t : JStr) (h1 : t ≠ BEGINV) (h2 : t ≠ ENDV)
    (h3 : t ≠ ENDCAL) (hin : st.inEvent = false) (hff : st.foundFirstEvent = true) :
    stepCore st t = st := by
  unfold stepCore
  rw [if_neg h1, if_neg h2, if_neg h3, if_neg (by simp [hin]), if_neg (by simp [hff])]

/-- One parse-loop step can never put the BEGIN:VEVENT or END:VEVENT marker
into the header lines: those two lines are intercepted before any branch
that records a line. -/
theorem stepCore_header_no_markers (st : PState) (t : JStr)
    (h : BEGINV ∉ st.headerLines ∧ ENDV ∉ st.headerLines) :
    BEGINV ∉ (stepCore st t).headerLines ∧ ENDV ∉ (stepCore st t).headerLines := by
  by_cases h1 : t = BEGINV
  · subst h1
    rw [stepCore_of_beginv]
    exact h
  by_cases h2 : t = ENDV
  · subst h2
    rw [stepCore_of_endv]
    exact h
  by_cases h3 : t = ENDCAL
  · subst h3
    rw [stepCore_of_endcal]
    exact h
  by_cases hin : st.inEvent = true
  · unfold stepCore
    rw [if_neg h1, if_neg h2, if_neg h3, if_pos hin]
    by_cases h4 : t = BEGINA
    · rw [if_pos h4]
      exact h
    rw [if_neg h4]
    by_cases h5 : t = ENDA
    · rw [if_pos h5]
      exact h
    rw [if_neg h5]
    by_cases hva : st.inValarm = true
    · rw [if_pos hva]
      exact h
    · rw [if_neg hva]
      rw [(stepBody_proj st t).1]
      exact h
  · have hin2 : st.inEvent = false := by
      rcases hsi : st.inEvent with _ | _
      · rfl
      · exact absurd hsi hin
    by_cases hff : st.foundFirstEvent = false
    · rw [stepCore_of_header st t h1 h2 h3 hin2 hff]
      rw [(stepHeader_proj st t).1]
      constructor
      · intro hc
        rcases List.mem_append.mp hc with hm | hm
        · exact h.1 hm
        · simp at hm
          exact h1 hm.symm
      · intro hc
        rcases List.mem_append.mp hc with hm | hm
        · exact h.2 hm
        · simp at hm
          exact h2 hm.symm
    · have hff2 : st.foundFirstEvent = true := by
        rcases hsf : st.foundFirstEvent with _ | _
        · exact absurd hsf hff
        · rfl
      rw [stepCore_of_skip st t h1 h2 h3 hin2 hff2]
      exact h

theorem foldl_header_no_markers : ∀ (ls : List JStr) (st : PState),
    BEGINV ∉ st.headerLines ∧ ENDV ∉ st.headerLines →
    BEGINV ∉ (ls.foldl (fun s l => stepCore s (trim l)) st).headerLines ∧
    ENDV ∉ (ls.foldl (fun s l => stepCore s (trim l)) st).headerLines := by
  intro ls
  induction ls with
  | nil => intro st h; exact h
  | cons l rest ih =>
    intro st h
    rw [List.foldl_cons]
    exact ih _ (stepCore_header_no_markers st (trim l) h)

/-- C9 (amended): for every input text, the header line list returned by
parse contains neither the BEGIN:VEVENT nor the END:VEVENT marker.  The
claim's further assertion that no alarm line appears there is false: alarm
lines seen before the first event are kept as header lines (see the
counterexample). -/
theorem C9_headerLines_spec (x : JStr) :
    BEGINV ∉ (parse x).headerLines ∧ ENDV ∉ (parse x).headerLines :=
  foldl_header_no_markers (logicalLines x) initState (by simp [initState])

def C9input : JStr := ofStr "BEGIN:VALARM\nBEGIN:VEVENT\nEND:VEVENT"

/-- C9 counterexample: a BEGIN:VALARM marker that occurs before the first
event is pushed onto headerLines by the pre-event branch of the parse loop,
so headerLines can contain alarm lines, contrary to the claim. -/
theorem C9_counterexample : BEGINA ∈ (parse C9input).headerLines := by decide

theorem mapM_some_of_eq {α β : Type} (g : α → Option β) (f : α → β) :
    ∀ l : List α, (∀ a ∈ l, g a = some (f a)) → l.mapM g = some (l.map f) := by
  intro l
  induction l with
  | nil => intro _; rfl
  | cons a rest ih =>
    intro h
    rw [List.map_cons, List.mapM_cons, h a (by simp), ih (fun a ha => h a (by simp [ha]))]
    rfl

theorem mapM_some_elim {α β : Type} (g : α → Option β) :
    ∀ (l : List α) (ys : List β), l.mapM g = some ys →
    List.Forall₂ (fun a y => g a = some y) l ys := by
  intro l
  induction l with
  | nil =>
    intro ys h
    rw [List.mapM_nil] at h
    injection h with h2
    rw [← h2]
    exact List.Forall₂.nil
  | cons a rest ih =>
    intro ys h
    rw [List.mapM_cons] at h
    rcases hg : g a with _ | y
    · rw [hg] at h
      simp at h
    · rw [hg] at h
      rcases hr : rest.mapM g with _ | ys2
      · rw [hr] at h
        simp at h
      · rw [hr] at h
        injection h with h2
        rw [← h2]
        exact List.Forall₂.cons hg (ih ys2 hr)

theorem foldLineSegs_ne_nil (l : JStr) (segs : List JStr)
    (h : foldLineSegs l = some segs) : segs ≠ [] := by
  unfold foldLineSegs at h
  by_cases hs : l.length ≤ MAX_LINE_LENGTH
  · rw [if_pos hs] at h
    injection h with h2
    rw [← h2]
    simp
  · rw [if_neg hs] at h
    have hj := (foldLoop_spec _ _ _ _ h).1
    intro hcontra
    rw [hcontra] at hj
    simp [segsJoin] at hj
    rw [hj] at hs
    simp [MAX_LINE_LENGTH] at hs

theorem foldLineSegs_clean (l : JStr) (segs : List JStr)
    (h : foldLineSegs l = some segs) (h10 : 10 ∉ l) (h13 : 13 ∉ l) :
    ∀ s ∈ segs, 10 ∉ s ∧ 13 ∉ s := by
  intro s hs
  unfold foldLineSegs at h
  by_cases hlen : l.length ≤ MAX_LINE_LENGTH
  · rw [if_pos hlen] at h
    injection h with h2
    rw [← h2] at hs
    simp at hs
    rw [hs]
    exact ⟨h10, h13⟩
  · rw [if_neg hlen] at h
    have hmem := (foldLoop_spec _ _ _ _ h).2.1
    constructor
    · intro hc
      rcases hmem s hs 10 hc with h32 | hin
      · omega
      · exact h10 hin
    · intro hc
      rcases hmem s hs 13 hc with h32 | hin
      · omega
      · exact h13 hin

theorem intercalate_append_ne (sep : JStr) :
    ∀ (a b : List JStr), a ≠ [] → b ≠ [] →
    List.intercalate sep (a ++ b) =
      List.intercalate sep a ++ sep ++ List.intercalate sep b := by
  intro a
  induction a with
  | nil => intro b h _; exact absurd rfl h
  | cons x a2 ih =>
    intro b _ hb
    rcases a2 with _ | ⟨y, a3⟩
    · rcases b with _ | ⟨z, b2⟩
      · exact absurd rfl hb
      · rw [intercalate_singleton]
        rw [show ([x] ++ z :: b2) = x :: z :: b2 from rfl]
        rw [intercalate_cons2]
        simp [List.append_assoc]
    · have hL : (x :: y :: a3) ++ b = x :: y :: (a3 ++ b) := rfl
      rw [hL, intercalate_cons2 sep x y (a3 ++ b), intercalate_cons2 sep x y a3]
      have hyb : y :: (a3 ++ b) = (y :: a3) ++ b := rfl
      rw [hyb, ih b (by simp) hb]
      simp [List.append_assoc]

theorem intercalate_flatten_groups (sep : JStr) :
    ∀ G : List (List JStr), (∀ g ∈ G, g ≠ []) →
    List.intercalate sep (G.map (List.intercalate sep)) =
      List.intercalate sep G.flatten := by
  intro G
  induction G with
  | nil => intro _; rfl
  | cons g G2 ih =>
    intro h
    have hg : g ≠ [] := h g (by simp)
    have hih := ih (fun x hx => h x (by simp [hx]))
    rcases G2 with _ | ⟨g2, rest⟩
    · simp [intercalate_singleton]
    · rw [List.map_cons, List.map_cons, intercalate_cons2, ← List.map_cons, hih]
      have hfl : (g2 :: rest).flatten ≠ [] := by
        rw [List.flatten_cons]
        intro hc
        exact h g2 (by simp) (List.append_eq_nil.mp hc).1
      have hrhs : (g :: g2 :: rest).flatten = g ++ (g2 :: rest).flatten := List.flatten_cons
      rw [hrhs]
      rw [intercalate_append_ne sep g ((g2 :: rest).flatten) hg hfl]
      simp [List.append_assoc]

theorem map_singleton_groups (ls : List JStr) :
    ls = (ls.map (fun l => [l])).map (List.intercalate [13, 10]) := by
  induction ls with
  | nil => rfl
  | cons l rest ih =>
    rw [List.map_cons, List.map_cons, intercalate_singleton, ← ih]

/-- A line free of both line-break units. -/
def cleanLine (l : JStr) : Prop := 10 ∉ l ∧ 13 ∉ l

/-- Every line stored anywhere in the parse state is free of line breaks. -/
def stClean (st : PState) : Prop :=
  (∀ l ∈ st.headerLines, cleanLine l) ∧
  (∀ e ∈ st.events, (∀ l ∈ e.rawLines, cleanLine l) ∧ ∀ kv ∈ e.properties, cleanLine kv.2.raw) ∧
  (∀ l ∈ st.curLines, cleanLine l) ∧
  (∀ ps, st.curProps = some ps → ∀ kv ∈ ps, cleanLine kv.2.raw)

theorem stepCore_clean (st : PState) (t : JStr) (ht : cleanLine t) (h : stClean st) :
    stClean (stepCore st t) := by
  obtain ⟨hh, he, hc, hp⟩ := h
  by_cases h1 : t = BEGINV
  · subst h1
    rw [stepCore_of_beginv]
    refine ⟨hh, he, ?_, ?_⟩
    · intro l hl
      simp at hl
    · intro ps hps kv hkv
      simp at hps
      subst hps
      simp at hkv
  by_cases h2 : t = ENDV
  · subst h2
    rw [stepCore_of_endv]
    refine ⟨hh, ?_, ?_, ?_⟩
    · intro e hee
      rcases hsp : st.curProps with _ | ps
      · rw [hsp] at hee
        exact he e hee
      · rw [hsp] at hee
        rcases List.mem_append.mp hee with hm | hm
        · exact he e hm
        · simp at hm
          rw [hm]
          exact ⟨hc, hp ps hsp⟩
    · intro l hl
      simp at hl
    · intro ps hps
      simp at hps
  by_cases h3 : t = ENDCAL
  · subst h3
    rw [stepCore_of_endcal]
    exact ⟨hh, he, hc, hp⟩
  by_cases hin : st.inEvent = true
  · unfold stepCore
    rw [if_neg h1, if_neg h2, if_neg h3, if_pos hin]
    by_cases h4 : t = BEGINA
    · rw [if_pos h4]
      exact ⟨hh, he, hc, hp⟩
    rw [if_neg h4]
    by_cases h5 : t = ENDA
    · rw [if_pos h5]
      exact ⟨hh, he, hc, hp⟩
    rw [if_neg h5]
    by_cases hva : st.inValarm = true
    · rw [if_pos hva]
      exact ⟨hh, he, hc, hp⟩
    · rw [if_neg hva]
      obtain ⟨hbh, hbe, _, _, _, hbc, _⟩ := stepBody_proj st t
      refine ⟨?_, ?_, ?_, ?_⟩
      · rw [hbh]
        exact hh
      · rw [hbe]
        exact he
      · rw [hbc]
        intro l hl
        rcases List.mem_append.mp hl with hm | hm
        · exact hc l hm
        · simp at hm
          rw [hm]
          exact ht
      · intro ps hps kv hkv
        rcases stepBody_curProps_raws st t ps hps with ⟨ps0, hps0, hmem⟩
        rcases hmem kv hkv with hm | hm
        · exact hp ps0 hps0 kv hm
        · rw [hm]
          exact ht
  · have hin2 : st.inEvent = false := by
      rcases hsi : st.inEvent with _ | _
      · rfl
      · exact absurd hsi hin
    by_cases hff : st.foundFirstEvent = false
    · rw [stepCore_of_header st t h1 h2 h3 hin2 hff]
      obtain ⟨hph, hpe, _, _, _, hpc, hpp⟩ := stepHeader_proj st t
      refine ⟨?_, ?_, ?_, ?_⟩
      · rw [hph]
        intro l hl
        rcases List.mem_append.mp hl with hm | hm
        · exact hh l hm
        · simp at hm
          rw [hm]
          exact ht
      · rw [hpe]
        exact he
      · rw [hpc]
        exact hc
      · rw [hpp]
        exact hp
    · have hff2 : st.foundFirstEvent = true := by
        rcases hsf : st.foundFirstEvent with _ | _
        · exact absurd hsf hff
        · rfl
      rw [stepCore_of_skip st t h1 h2 h3 hin2 hff2]
      exact ⟨hh, he, hc, hp⟩

/-- Every header line and every stored event line of a parsed calendar is
free of line-break units: the parser only stores trimmed pieces of the
LF-split, CR-normalized input. -/
theorem parse_clean (x : JStr) :
    (∀ l ∈ (parse x).headerLines, cleanLine l) ∧
    (∀ e ∈ (parse x).events,
      (∀ l ∈ e.rawLines, cleanLine l) ∧ ∀ kv ∈ e.properties, cleanLine kv.2.raw) := by
  have hfold : ∀ (ls : List JStr) (st : PState), (∀ l ∈ ls, cleanLine (trim l)) →
      stClean st → stClean (ls.foldl (fun s l => stepCore s (trim l)) st) := by
    intro ls
    induction ls with
    | nil => intro st _ h; exact h
    | cons l rest ih =>
      intro st hls h
      rw [List.foldl_cons]
      exact ih _ (fun a ha => hls a (by simp [ha]))
        (stepCore_clean st (trim l) (hls l (by simp)) h)
  have hlines : ∀ l ∈ logicalLines x, cleanLine (trim l) := by
    intro l hl
    obtain ⟨h10, h13, _⟩ := logicalLines_clean x l hl
    exact ⟨fun hcc => h10 (trim_mem hcc), fun hcc => h13 (trim_mem hcc)⟩
  have hres := hfold (logicalLines x) initState hlines
    (by refine ⟨?_, ?_, ?_, ?_⟩ <;> simp [initState])
  exact ⟨hres.1, hres.2.1⟩

theorem eventOutLines_clean (ev : Event) (cm : Bool)
    (h1 : ∀ l ∈ ev.rawLines, cleanLine l) (h2 : ∀ kv ∈ ev.properties, cleanLine kv.2.raw) :
    ∀ l ∈ eventOutLines ev cm, cleanLine l := by
  intro l hl
  unfold eventOutLines at hl
  by_cases hr : ev.rawLines.length ≠ 0
  · rw [if_pos hr] at hl
    exact h1 l (List.mem_filter.mp (List.mem_filter.mp hl).1).1
  · rw [if_neg hr] at hl
    have hm := (List.mem_filter.mp (List.mem_filter.mp hl).1).1
    rcases List.mem_map.mp hm with ⟨kv, hkv, hkveq⟩
    rw [← hkveq]
    exact h2 kv hkv

theorem foldLine_groups : ∀ (ls fls : List JStr),
    (∀ l ∈ ls, cleanLine l) →
    List.Forall₂ (fun l fl => foldLine l = some fl) ls fls →
    ∃ G : List (List JStr), fls = G.map (List.intercalate [13, 10]) ∧
      ∀ g ∈ G, g ≠ [] ∧ ∀ s ∈ g, cleanLine s := by
  intro ls
  induction ls with
  | nil =>
    intro fls _ h
    cases h
    exact ⟨[], rfl, by simp⟩
  | cons l rest ih =>
    intro fls hcl h
    cases h with
    | cons hr hrest =>
      rename_i fl fls2
      unfold foldLine at hr
      rcases hsegs : foldLineSegs l with _ | segs
      · rw [hsegs] at hr
        simp at hr
      · rw [hsegs] at hr
        simp only [Option.map_some'] at hr
        injection hr with hr2
        obtain ⟨G2, hG2eq, hG2ok⟩ := ih fls2 (fun a ha => hcl a (by simp [ha])) hrest
        refine ⟨segs :: G2, ?_, ?_⟩
        · rw [List.map_cons, ← hG2eq, hr2]
        · intro g hg
          rcases List.mem_cons.mp hg with rfl | hm
          · have hcll := hcl l (by simp)
            exact ⟨foldLineSegs_ne_nil l g hsegs,
              fun s hs => foldLineSegs_clean l g hsegs hcll.1 hcll.2 s hs⟩
          · exact hG2ok g hm

theorem blocks_struct : ∀ (evs : List Event) (bodies0 : List (List JStr)) (cm : Bool),
    (∀ e ∈ evs, (∀ l ∈ e.rawLines, cleanLine l) ∧ ∀ kv ∈ e.properties, cleanLine kv.2.raw) →
    List.Forall₂ (fun ev b => (eventOutLines ev cm).mapM foldLine = some b) evs bodies0 →
    ∃ B AG : List (List JStr),
      B.length = evs.length ∧
      (∀ b ∈ B, ∀ s ∈ b, cleanLine s) ∧
      (∀ g ∈ AG, g ≠ []) ∧
      (bodies0.map (fun b => BEGINV :: b ++ [ENDV])).flatten =
        AG.map (List.intercalate [13, 10]) ∧
      AG.flatten = (B.map (fun b => BEGINV :: b ++ [ENDV])).flatten := by
  intro evs
  induction evs with
  | nil =>
    intro bodies0 cm _ h
    cases h
    exact ⟨[], [], rfl, by simp, by simp, rfl, rfl⟩
  | cons e rest ih =>
    intro bodies0 cm hcl h
    cases h with
    | cons hr hrest =>
      rename_i b0 brest
      obtain ⟨B2, AG2, hlen, hBcl, hAGne, hAGmap, hAGfl⟩ :=
        ih brest cm (fun a ha => hcl a (by simp [ha])) hrest
      have hecl := hcl e (by simp)
      have hlines := eventOutLines_clean e cm hecl.1 hecl.2
      have hfa := mapM_some_elim foldLine (eventOutLines e cm) b0 hr
      obtain ⟨G, hGeq, hGok⟩ := foldLine_groups (eventOutLines e cm) b0 hlines hfa
      refine ⟨G.flatten :: B2, ([BEGINV] :: G ++ [[ENDV]]) ++ AG2, ?_, ?_, ?_, ?_, ?_⟩
      · simp [hlen]
      · intro b hb
        rcases List.mem_cons.mp hb with rfl | hm
        · intro s hs
          rcases List.mem_flatten.mp hs with ⟨g, hg, hsg⟩
          exact (hGok g hg).2 s hsg
        · exact hBcl b hm
      · intro g hg
        rcases List.mem_append.mp hg with hm | hm
        · rcases List.mem_cons.mp hm with rfl | hm2
          · simp
          · rcases List.mem_append.mp hm2 with hm3 | hm3
            · exact (hGok g hm3).1
            · simp at hm3
              rw [hm3]
              simp
        · exact hAGne g hm
      · have hL : (((b0 :: brest).map (fun b => BEGINV :: b ++ [ENDV])).flatten :
              List JStr) =
            (BEGINV :: b0 ++ [ENDV]) ++
              ((brest.map (fun b => BEGINV :: b ++ [ENDV])).flatten) := by
          rw [List.map_cons]
          exact List.flatten_cons
        rw [hL, hAGmap, List.map_append]
        congr 1
        rw [hGeq]
        simp [intercalate_singleton]
      · rw [List.flatten_append, hAGfl, List.map_cons]
        have hR : (((G.flatten :: B2).map (fun b => BEGINV :: b ++ [ENDV])).flatten :
              List JStr) =
            (BEGINV :: G.flatten ++ [ENDV]) ++
              ((B2.map (fun b => BEGINV :: b ++ [ENDV])).flatten) := by
          rw [List.map_cons]
          exact List.flatten_cons
        have hRfl : ((BEGINV :: G.flatten ++ [ENDV]) ::
              List.map (fun b => BEGINV :: b ++ [ENDV]) B2).flatten =
            (BEGINV :: G.flatten ++ [ENDV]) ++
              (List.map (fun b => BEGINV :: b ++ [ENDV]) B2).flatten := List.flatten_cons
        rw [hRfl]
        congr 1
        simp [List.flatten_cons, List.flatten_append]

theorem write_assemble (hdrG AG B bodies0 : List (List JStr))
    (hdr0 : List JStr) (evs : List Event) (w : JStr)
    (hhdr0 : hdr0 = hdrG.map (List.intercalate [13, 10]))
    (hhG : ∀ g ∈ hdrG, g ≠ [] ∧ ∀ s ∈ g, cleanLine s)
    (hlen : B.length = evs.length)
    (hBcl : ∀ b ∈ B, ∀ s ∈ b, cleanLine s)
    (hAGne : ∀ g ∈ AG, g ≠ [])
    (hAGmap : (bodies0.map (fun b => BEGINV :: b ++ [ENDV])).flatten =
      AG.map (List.intercalate [13, 10]))
    (hAGfl : AG.flatten = (B.map (fun b => BEGINV :: b ++ [ENDV])).flatten)
    (hw2 : List.intercalate [13, 10]
        (hdr0 ++ (bodies0.map (fun b => BEGINV :: b ++ [ENDV])).flatten ++ [ENDCAL])
      ++ [13, 10] = w) :
    ∃ hdr : List JStr, ∃ bodies : List (List JStr), bodies.length = evs.length ∧
      w = List.intercalate [13, 10]
            (hdr ++ (bodies.map (fun b => BEGINV :: b ++ [ENDV])).flatten ++ [ENDCAL])
          ++ [13, 10] ∧
      (∀ s ∈ hdr, cleanLine s) ∧ ∀ b ∈ bodies, ∀ s ∈ b, cleanLine s := by
  refine ⟨hdrG.flatten, B, hlen, ?_, ?_, hBcl⟩
  · rw [← hw2, hhdr0, hAGmap]
    have hAll : hdrG.map (List.intercalate [13, 10]) ++
          AG.map (List.intercalate [13, 10]) ++ [ENDCAL] =
        (hdrG ++ AG ++ [[ENDCAL]]).map (List.intercalate [13, 10]) := by
      simp [List.map_append, intercalate_singleton]
    rw [hAll]
    have hne : ∀ g ∈ hdrG ++ AG ++ [[ENDCAL]], g ≠ [] := by
      intro g hg
      rcases List.mem_append.mp hg with hm | hm
      · rcases List.mem_append.mp hm with hm2 | hm2
        · exact (hhG g hm2).1
        · exact hAGne g hm2
      · simp at hm
        rw [hm]
        simp
    rw [intercalate_flatten_groups [13, 10] (hdrG ++ AG ++ [[ENDCAL]]) hne]
    have hfl2 : (hdrG ++ AG ++ [[ENDCAL]]).flatten =
        hdrG.flatten ++ (B.map (fun b => BEGINV :: b ++ [ENDV])).flatten ++ [ENDCAL] := by
      simp [List.flatten_append, hAGfl]
    rw [hfl2]
  · intro s hs
    rcases List.mem_flatten.mp hs with ⟨g, hg, hsg⟩
    exact (hhG g hg).2 s hsg

theorem write_structure (cal : Calendar) (evs : List Event) (cm : Bool) (w : JStr)
    (hhdr : ∀ l ∈ cal.headerLines, cleanLine l)
    (hevs : ∀ e ∈ evs, (∀ l ∈ e.rawLines, cleanLine l) ∧ ∀ kv ∈ e.properties, cleanLine kv.2.raw)
    (hw : write cal evs cm = some w) :
    ∃ hdr : List JStr, ∃ bodies : List (List JStr), bodies.length = evs.length ∧
      w = List.intercalate [13, 10]
            (hdr ++ (bodies.map (fun b => BEGINV :: b ++ [ENDV])).flatten ++ [ENDCAL])
          ++ [13, 10] ∧
      (∀ s ∈ hdr, cleanLine s) ∧ ∀ b ∈ bodies, ∀ s ∈ b, cleanLine s := by
  unfold write at hw
  simp only [] at hw
  rcases hb : evs.mapM (fun ev => (eventOutLines ev cm).mapM foldLine) with _ | bodies0
  · rcases hh : (if cal.headerLines.length ≠ 0 then cal.headerLines.mapM foldLine
        else some defaultHeader) with _ | hdr0 <;>
      rw [hh, hb] at hw <;> simp at hw
  · rcases hh : (if cal.headerLines.length ≠ 0 then cal.headerLines.mapM foldLine
        else some defaultHeader) with _ | hdr0
    · rw [hh, hb] at hw
      simp at hw
    · rw [hh, hb] at hw
      injection hw with hw2
      obtain ⟨B, AG, hlen, hBcl, hAGne, hAGmap, hAGfl⟩ :=
        blocks_struct evs bodies0 cm hevs
          (mapM_some_elim (fun ev => (eventOutLines ev cm).mapM foldLine) evs bodies0 hb)
      by_cases hhl : cal.headerLines.length ≠ 0
      · rw [if_pos hhl] at hh
        obtain ⟨hdrG, hGeq, hGok⟩ := foldLine_groups cal.headerLines hdr0 hhdr
          (mapM_some_elim foldLine cal.headerLines hdr0 hh)
        exact write_assemble hdrG AG B bodies0 hdr0 evs w hGeq hGok hlen hBcl hAGne
          hAGmap hAGfl hw2
      · rw [if_neg hhl] at hh
        injection hh with hh2
        have hdefok : ∀ g ∈ defaultHeader.map (fun l => [l]), g ≠ [] ∧ ∀ s ∈ g, cleanLine s := by
          intro g hg
          rcases List.mem_map.mp hg with ⟨l, hdl, hgl⟩
          refine ⟨by rw [← hgl]; simp, ?_⟩
          intro s hs
          rw [← hgl] at hs
          simp at hs
          rw [hs]
          fin_cases hdl <;> exact ⟨by decide, by decide⟩
        have hdr0eq : hdr0 = (defaultHeader.map (fun l => [l])).map (List.intercalate [13, 10]) := by
          rw [← hh2]
          exact map_singleton_groups defaultHeader
        exact write_assemble (defaultHeader.map (fun l => [l])) AG B bodies0 hdr0 evs w
          hdr0eq hdefok hlen hBcl hAGne hAGmap hAGfl hw2

/-- C4 (amended): for every input text, every selection of the parsed
events and either clean-mode flag, whenever write returns a document it is
the CRLF-join of physical lines free of CR and LF: some header lines, then
one matched BEGIN:VEVENT _ END:VEVENT block per supplied event, then one
final END:VCALENDAR line, the whole terminated by a single trailing CRLF.
The claim's matched BEGIN:VCALENDAR/END:VCALENDAR pair is not guaranteed:
parse keeps whatever header the input had, which need not contain
BEGIN:VCALENDAR (see the counterexample). -/
theorem C4_write_balanced (x : JStr) (evs : List Event) (cleanMode : Bool) (w : JStr)
    (hsub : ∀ e ∈ evs, e ∈ (parse x).events)
    (hw : write (parse x) evs cleanMode = some w) :
    ∃ hdr : List JStr, ∃ bodies : List (List JStr), bodies.length = evs.length ∧
      w = List.intercalate [13, 10]
            (hdr ++ (bodies.map (fun b => BEGINV :: b ++ [ENDV])).flatten ++ [ENDCAL])
          ++ [13, 10] ∧
      (∀ s ∈ hdr, 10 ∉ s ∧ 13 ∉ s) ∧ ∀ b ∈ bodies, ∀ s ∈ b, 10 ∉ s ∧ 13 ∉ s := by
  obtain ⟨hh, he⟩ := parse_clean x
  exact write_structure (parse x) evs cleanMode w hh (fun e hee => he e (hsub e hee)) hw

def C4wx : JStr :=
  ofStr "BEGIN:VCALENDAR\nVERSION:2.0\nBEGIN:VEVENT\nSUMMARY:A\nEND:VEVENT\nEND:VCALENDAR"

def C4wout : JStr :=
  ofStr "BEGIN:VCALENDAR\r\nVERSION:2.0\r\nBEGIN:VEVENT\r\nSUMMARY:A\r\nEND:VEVENT\r\nEND:VCALENDAR\r\n"

/-- C4 witness: on a concrete two-header-line calendar with one event the
written document decomposes as required. -/
theorem C4_write_balanced_witness :
    ∃ hdr : List JStr, ∃ bodies : List (List JStr),
      bodies.length = (parse C4wx).events.length ∧
      C4wout = List.intercalate [13, 10]
            (hdr ++ (bodies.map (fun b => BEGINV :: b ++ [ENDV])).flatten ++ [ENDCAL])
          ++ [13, 10] ∧
      (∀ s ∈ hdr, 10 ∉ s ∧ 13 ∉ s) ∧ ∀ b ∈ bodies, ∀ s ∈ b, 10 ∉ s ∧ 13 ∉ s :=
  C4_write_balanced C4wx (parse C4wx).events true C4wout (fun e he => he) (by decide)

def C4cx : JStr := ofStr "X:1\nBEGIN:VEVENT\nA:1\nEND:VEVENT"

def C4cout : JStr := ofStr "X:1\r\nBEGIN:VEVENT\r\nA:1\r\nEND:VEVENT\r\nEND:VCALENDAR\r\n"

/-- C4 counterexample: parse keeps the original header lines even when the
input has no BEGIN:VCALENDAR, so write emits an END:VCALENDAR line with no
matching BEGIN:VCALENDAR anywhere in the document. -/
theorem C4_counterexample :
    write (parse C4cx) (parse C4cx).events true = some C4cout ∧
    ¬ List.IsInfix BEGINCAL C4cout ∧ List.IsInfix ENDCAL C4cout := by
  refine ⟨by decide, by decide, by decide⟩

theorem splitLF_no10_self : ∀ l : JStr, 10 ∉ l → splitLF l = [l] := by
  intro l
  induction l with
  | nil => intro _; rfl
  | cons c rest ih =>
    intro h
    have hc : c ≠ 10 := fun hcc => h (by simp [hcc])
    rw [splitLF, if_neg hc, ih (fun hm => h (List.mem_cons_of_mem _ hm))]

theorem splitLF_append_cons : ∀ (a b : JStr), 10 ∉ a →
    splitLF (a ++ 10 :: b) = a :: splitLF b := by
  intro a
  induction a with
  | nil =>
    intro b _
    show splitLF (10 :: b) = [] :: splitLF b
    rw [splitLF, if_pos rfl]
  | cons c a2 ih =>
    intro b h
    have hc : c ≠ 10 := fun hcc => h (by simp [hcc])
    show splitLF (c :: (a2 ++ 10 :: b)) = (c :: a2) :: splitLF b
    rw [splitLF, if_neg hc, ih b (fun hm => h (List.mem_cons_of_mem _ hm))]

theorem splitLF_joined : ∀ L : List JStr, L ≠ [] → (∀ l ∈ L, 10 ∉ l) →
    splitLF (List.intercalate [10] L) = L := by
  intro L
  induction L with
  | nil => intro h _; exact absurd rfl h
  | cons l rest ih =>
    intro _ h
    rcases rest with _ | ⟨l2, rest2⟩
    · rw [intercalate_singleton]
      exact splitLF_no10_self l (h l (by simp))
    · rw [intercalate_cons2]
      rw [show ([10] : JStr) ++ List.intercalate [10] (l2 :: rest2) =
            10 :: List.intercalate [10] (l2 :: rest2) from rfl]
      rw [splitLF_append_cons l _ (h l (by simp))]
      rw [ih (by simp) (fun a ha => h a (List.mem_cons_of_mem _ ha))]

theorem mem_intercalate_sep (sep : JStr) : ∀ (L : List JStr) (c : Nat),
    c ∈ List.intercalate sep L → c ∈ sep ∨ ∃ l ∈ L, c ∈ l := by
  intro L
  induction L with
  | nil => intro c hc; simp [List.intercalate] at hc
  | cons l rest ih =>
    intro c hc
    rcases rest with _ | ⟨l2, rest2⟩
    · rw [intercalate_singleton] at hc
      exact Or.inr ⟨l, by simp, hc⟩
    · rw [intercalate_cons2] at hc
      rcases List.mem_append.mp hc with hm | hm
      · exact Or.inr ⟨l, by simp, hm⟩
      · rcases List.mem_append.mp hm with hm2 | hm2
        · exact Or.inl hm2
        · rcases ih c hm2 with h1 | ⟨a, ha, hca⟩
          · exact Or.inl h1
          · exact Or.inr ⟨a, List.mem_cons_of_mem _ ha, hca⟩

theorem unfoldAux_true_keep : ∀ L : List JStr,
    (∀ l ∈ L, l ≠ [] ∧ 10 ∉ l ∧ l.head? ≠ some 32 ∧ l.head? ≠ some 9) →
    unfoldAux true (List.intercalate [10] L) = 10 :: List.intercalate [10] L := by
  intro L
  induction L with
  | nil => intro _; rfl
  | cons l rest ih =>
    intro h
    obtain ⟨hne, h10, h32, h9⟩ := h l (by simp)
    rcases hl : l with _ | ⟨c, l2⟩
    · exact absurd hl hne
    have hc32 : c ≠ 32 := by
      intro hcc
      rw [hl, hcc] at h32
      simp at h32
    have hc9 : c ≠ 9 := by
      intro hcc
      rw [hl, hcc] at h9
      simp at h9
    have hc10 : c ≠ 10 := by
      intro hcc
      rw [hl, hcc] at h10
      simp at h10
    have h10l2 : 10 ∉ l2 := by
      intro hm
      rw [hl] at h10
      exact h10 (List.mem_cons_of_mem _ hm)
    rcases rest with _ | ⟨r, rs⟩
    · rw [intercalate_singleton]
      rw [unfoldAux]
      rw [if_pos rfl, if_neg (by simp [hc32, hc9]), if_neg hc10]
      rw [show unfoldAux false l2 = unfoldCont l2 from rfl,
        unfoldCont_no10 l2 (fun a ha hc => h10l2 (hc ▸ ha))]
    · rw [intercalate_cons2]
      rw [show ((c :: l2) ++ ([10] ++ List.intercalate [10] (r :: rs)) : JStr) =
            c :: (l2 ++ 10 :: List.intercalate [10] (r :: rs)) from rfl]
      rw [unfoldAux]
      rw [if_pos rfl, if_neg (by simp [hc32, hc9]), if_neg hc10]
      rw [show unfoldAux false (l2 ++ 10 :: List.intercalate [10] (r :: rs)) =
            unfoldCont (l2 ++ 10 :: List.intercalate [10] (r :: rs)) from rfl]
      rw [unfoldCont_app_no10 l2 _ (fun a ha => fun hc => h10l2 (hc ▸ ha))]
      rw [show unfoldCont (10 :: List.intercalate [10] (r :: rs)) =
            unfoldAux true (List.intercalate [10] (r :: rs)) from rfl]
      rw [ih (fun a ha => h a (List.mem_cons_of_mem _ ha))]

theorem unfoldCont_keep (L : List JStr) (hne : L ≠ [])
    (h : ∀ l ∈ L, l ≠ [] ∧ 10 ∉ l ∧ l.head? ≠ some 32 ∧ l.head? ≠ some 9) :
    unfoldCont (List.intercalate [10] L) = List.intercalate [10] L := by
  rcases L with _ | ⟨l, rest⟩
  · exact absurd rfl hne
  obtain ⟨hlne, h10, _, _⟩ := h l (by simp)
  rcases rest with _ | ⟨r, rs⟩
  · rw [intercalate_singleton]
    exact unfoldCont_no10 l (fun a ha hc => h10 (hc ▸ ha))
  · rw [intercalate_cons2]
    rw [show ((l ++ ([10] ++ List.intercalate [10] (r :: rs))) : JStr) =
          l ++ (10 :: List.intercalate [10] (r :: rs)) from rfl]
    rw [unfoldCont_app_no10 l _ (fun a ha hc => h10 (hc ▸ ha))]
    rw [show unfoldCont (10 :: List.intercalate [10] (r :: rs)) =
          unfoldAux true (List.intercalate [10] (r :: rs)) from rfl]
    rw [unfoldAux_true_keep (r :: rs) (fun a ha => h a (List.mem_cons_of_mem _ ha))]

theorem foldl_trim_eq : ∀ (ls : List JStr) (st : PState), (∀ l ∈ ls, trim l = l) →
    ls.foldl (fun s l => stepCore s (trim l)) st = ls.foldl stepCore st := by
  intro ls
  induction ls with
  | nil => intro st _; rfl
  | cons l rest ih =>
    intro st h
    rw [List.foldl_cons, List.foldl_cons, h l (by simp),
      ih _ (fun a ha => h a (List.mem_cons_of_mem _ ha))]

theorem trimmed_head_not_sp {l : JStr} (ht : trim l = l) :
    l.head? ≠ some 32 ∧ l.head? ≠ some 9 := by
  constructor <;> intro hc
  · have hws : isWS 32 = false := trim_head_not_ws (by rw [ht]; exact hc)
    simp [isWS] at hws
  · have hws : isWS 9 = false := trim_head_not_ws (by rw [ht]; exact hc)
    simp [isWS] at hws

theorem foldl_header_phase : ∀ (H : List JStr) (st : PState),
    st.inEvent = false → st.foundFirstEvent = false →
    (∀ l ∈ H, l ≠ BEGINV ∧ l ≠ ENDV ∧ l ≠ ENDCAL) →
    (H.foldl stepCore st).headerLines = st.headerLines ++ H ∧
    (H.foldl stepCore st).events = st.events ∧
    (H.foldl stepCore st).inEvent = false ∧
    (H.foldl stepCore st).foundFirstEvent = false ∧
    (H.foldl stepCore st).inValarm = st.inValarm ∧
    (H.foldl stepCore st).curLines = st.curLines ∧
    (H.foldl stepCore st).curProps = st.curProps := by
  intro H
  induction H with
  | nil => intro st h1 h2 _; simp [h1, h2]
  | cons t H2 ih =>
    intro st hin hff h
    obtain ⟨hb1, hb2, hb3⟩ := h t (by simp)
    rw [List.foldl_cons, stepCore_of_header st t hb1 hb2 hb3 hin hff]
    obtain ⟨p1, p2, p3, p4, p5, p6, p7⟩ := stepHeader_proj st t
    obtain ⟨q1, q2, q3, q4, q5, q6, q7⟩ :=
      ih (stepHeader st t) (by rw [p3]; exact hin) (by rw [p4]; exact hff)
        (fun a ha => h a (List.mem_cons_of_mem _ ha))
    refine ⟨?_, ?_, q3, q4, ?_, ?_, ?_⟩
    · rw [q1, p1, List.append_assoc]
      rfl
    · rw [q2, p2]
    · rw [q5, p5]
    · rw [q6, p6]
    · rw [q7, p7]

theorem foldl_body_phase : ∀ (b : List JStr) (st : PState),
    st.inEvent = true → st.inValarm = false →
    (∀ l ∈ b, l ≠ BEGINV ∧ l ≠ ENDV ∧ l ≠ ENDCAL ∧ l ≠ BEGINA ∧ l ≠ ENDA) →
    (b.foldl stepCore st).headerLines = st.headerLines ∧
    (b.foldl stepCore st).events = st.events ∧
    (b.foldl stepCore st).inEvent = true ∧
    (b.foldl stepCore st).foundFirstEvent = st.foundFirstEvent ∧
    (b.foldl stepCore st).inValarm = false ∧
    (b.foldl stepCore st).curLines = st.curLines ++ b ∧
    (b.foldl stepCore st).curProps.isSome = st.curProps.isSome := by
  intro b
  induction b with
  | nil => intro st hin hva _; simp [hin, hva]
  | cons t b2 ih =>
    intro st hin hva h
    obtain ⟨hb1, hb2, hb3, hb4, hb5⟩ := h t (by simp)
    rw [List.foldl_cons, stepCore_of_body st t hb1 hb2 hb3 hb4 hb5 hin hva]
    obtain ⟨p1, p2, p3, p4, p5, p6, p7⟩ := stepBody_proj st t
    obtain ⟨q1, q2, q3, q4, q5, q6, q7⟩ :=
      ih (stepBody st t) (by rw [p3]; exact hin) (by rw [p5]; exact hva)
        (fun a ha => h a (List.mem_cons_of_mem _ ha))
    refine ⟨?_, ?_, q3, ?_, q5, ?_, ?_⟩
    · rw [q1, p1]
    · rw [q2, p2]
    · rw [q4, p4]
    · rw [q6, p6, List.append_assoc]
      rfl
    · rw [q7, p7]

theorem foldl_block (b : List JStr) (st : PState)
    (hva : st.inValarm = false)
    (hb : ∀ l ∈ b, l ≠ BEGINV ∧ l ≠ ENDV ∧ l ≠ ENDCAL ∧ l ≠ BEGINA ∧ l ≠ ENDA) :
    ∃ props : List (JStr × PropE),
    ((BEGINV :: b ++ [ENDV]).foldl stepCore st).headerLines = st.headerLines ∧
    ((BEGINV :: b ++ [ENDV]).foldl stepCore st).events =
      st.events ++ [{ properties := props, rawLines := b }] ∧
    ((BEGINV :: b ++ [ENDV]).foldl stepCore st).inEvent = false ∧
    ((BEGINV :: b ++ [ENDV]).foldl stepCore st).foundFirstEvent = true ∧
    ((BEGINV :: b ++ [ENDV]).foldl stepCore st).inValarm = false ∧
    ((BEGINV :: b ++ [ENDV]).foldl stepCore st).curLines = [] ∧
    ((BEGINV :: b ++ [ENDV]).foldl stepCore st).curProps = none := by
  have h1 : (BEGINV :: b ++ [ENDV] : List JStr) = BEGINV :: (b ++ [ENDV]) := by simp
  obtain ⟨q1, q2, q3, q4, q5, q6, q7⟩ :=
    foldl_body_phase b
      { st with
        foundFirstEvent := true, inEvent := true, curLines := [], curProps := some [] }
      rfl hva hb
  have hsplit : (BEGINV :: b ++ [ENDV]).foldl stepCore st =
      stepCore (b.foldl stepCore
        { st with
          foundFirstEvent := true, inEvent := true,
          curLines := [], curProps := some [] }) ENDV := by
    rw [h1, List.foldl_cons, stepCore_of_beginv, List.foldl_append]
    rfl
  rcases hsp : (b.foldl stepCore
      { st with
        foundFirstEvent := true, inEvent := true,
        curLines := [], curProps := some [] }).curProps with _ | ps
  · rw [hsp] at q7
    simp at q7
  · refine ⟨ps, ?_, ?_, ?_, ?_, ?_, ?_, ?_⟩ <;> rw [hsplit, stepCore_of_endv] <;>
      first
        | rfl
        | exact q1
        | exact q4
        | (rw [hsp, q2, q6]; rfl)

theorem foldl_blocks : ∀ (B : List (List JStr)) (st : PState),
    st.inEvent = false → st.inValarm = false →
    (∀ b ∈ B, ∀ l ∈ b, l ≠ BEGINV ∧ l ≠ ENDV ∧ l ≠ ENDCAL ∧ l ≠ BEGINA ∧ l ≠ ENDA) →
    ∃ evs : List Event,
      evs.map Event.rawLines = B ∧
      (((B.map (fun b => BEGINV :: b ++ [ENDV])).flatten).foldl stepCore st).headerLines =
        st.headerLines ∧
      (((B.map (fun b => BEGINV :: b ++ [ENDV])).flatten).foldl stepCore st).events =
        st.events ++ evs ∧
      (((B.map (fun b => BEGINV :: b ++ [ENDV])).flatten).foldl stepCore st).inEvent = false ∧
      (((B.map (fun b => BEGINV :: b ++ [ENDV])).flatten).foldl stepCore st).inValarm = false := by
  intro B
  induction B with
  | nil =>
    intro st hin hva _
    exact ⟨[], rfl, rfl, by simp, hin, hva⟩
  | cons b B2 ih =>
    intro st hin hva h
    have hflat : (((b :: B2).map (fun x => BEGINV :: x ++ [ENDV])).flatten : List JStr) =
        (BEGINV :: b ++ [ENDV]) ++ (B2.map (fun x => BEGINV :: x ++ [ENDV])).flatten := by
      rw [List.map_cons]
      exact List.flatten_cons
    obtain ⟨props, p1, p2, p3, p4, p5, p6, p7⟩ := foldl_block b st hva (h b (by simp))
    obtain ⟨evs2, r0, r1, r2, r3, r4⟩ :=
      ih ((BEGINV :: b ++ [ENDV]).foldl stepCore st) p3 p5
        (fun x hx => h x (List.mem_cons_of_mem _ hx))
    refine ⟨{ properties := props, rawLines := b } :: evs2, ?_, ?_, ?_, ?_, ?_⟩
    · rw [List.map_cons, r0]
    · rw [hflat, List.foldl_append, r1, p1]
    · rw [hflat, List.foldl_append, r2, p2, List.append_assoc]
      rfl
    · rw [hflat, List.foldl_append]
      exact r3
    · rw [hflat, List.foldl_append]
      exact r4

/-- A line in the normal form that survives the parser unchanged: already
trimmed, non-blank, free of line breaks, and short enough not to be folded. -/
def lineOK (l : JStr) : Prop :=
  trim l = l ∧ l ≠ [] ∧ 10 ∉ l ∧ 13 ∉ l ∧ l.length ≤ 75

instance decLineOK (l : JStr) : Decidable (lineOK l) := by
  unfold lineOK
  infer_instance

/-- The logical lines of a structured calendar document: header lines, one
BEGIN:VEVENT _ END:VEVENT block per event body, and a final END:VCALENDAR. -/
def docOf (H : List JStr) (B : List (List JStr)) : List JStr :=
  H ++ (B.map (fun b => BEGINV :: b ++ [ENDV])).flatten ++ [ENDCAL]

theorem docOf_mem {H : List JStr} {B : List (List JStr)} {l : JStr} (hl : l ∈ docOf H B) :
    l ∈ H ∨ l = BEGINV ∨ l = ENDV ∨ l = ENDCAL ∨ ∃ b ∈ B, l ∈ b := by
  unfold docOf at hl
  rcases List.mem_append.mp hl with hm | hm
  · rcases List.mem_append.mp hm with hm2 | hm2
    · exact Or.inl hm2
    · rcases List.mem_flatten.mp hm2 with ⟨g, hg, hlg⟩
      rcases List.mem_map.mp hg with ⟨b, hb, hbg⟩
      rw [← hbg] at hlg
      rcases List.mem_append.mp hlg with hm3 | hm3
      · rcases List.mem_cons.mp hm3 with rfl | hm4
        · exact Or.inr (Or.inl rfl)
        · exact Or.inr (Or.inr (Or.inr (Or.inr ⟨b, hb, hm4⟩)))
      · simp at hm3
        exact Or.inr (Or.inr (Or.inl hm3))
  · simp at hm
    exact Or.inr (Or.inr (Or.inr (Or.inl hm)))

theorem parse_structured (H : List JStr) (B : List (List JStr))
    (hH : ∀ l ∈ H, lineOK l ∧ l ≠ BEGINV ∧ l ≠ ENDV ∧ l ≠ ENDCAL)
    (hB : ∀ b ∈ B, b ≠ [] ∧ ∀ l ∈ b,
      lineOK l ∧ l ≠ BEGINV ∧ l ≠ ENDV ∧ l ≠ ENDCAL ∧ l ≠ BEGINA ∧ l ≠ ENDA) :
    ∃ evs : List Event,
      evs.map Event.rawLines = B ∧
      (parse (List.intercalate [10] (docOf H B))).headerLines = H ∧
      (parse (List.intercalate [10] (docOf H B))).events = evs := by
  have hlok : ∀ l ∈ docOf H B, lineOK l := by
    intro l hl
    rcases docOf_mem hl with hm | hm | hm | hm | ⟨b, hb2, hlb⟩
    · exact (hH l hm).1
    · rw [hm]; decide
    · rw [hm]; decide
    · rw [hm]; decide
    · exact ((hB b hb2).2 l hlb).1
  have hdocne : docOf H B ≠ [] := by
    unfold docOf
    intro hc
    exact absurd (List.append_eq_nil.mp hc).2 (by simp)
  have hcond : ∀ l ∈ docOf H B, l ≠ [] ∧ 10 ∉ l ∧ l.head? ≠ some 32 ∧ l.head? ≠ some 9 := by
    intro l hl
    obtain ⟨ht, hne, h10, _, _⟩ := hlok l hl
    obtain ⟨h32, h9⟩ := trimmed_head_not_sp ht
    exact ⟨hne, h10, h32, h9⟩
  have hno13 : ∀ c ∈ List.intercalate [10] (docOf H B), c ≠ 13 := by
    intro c hc
    rcases mem_intercalate_sep [10] (docOf H B) c hc with hm | ⟨l, hl, hcl⟩
    · simp at hm
      omega
    · obtain ⟨_, _, _, h13, _⟩ := hlok l hl
      intro hcc
      rw [hcc] at hcl
      exact h13 hcl
  have hnorm : normalizeNL (List.intercalate [10] (docOf H B)) =
      List.intercalate [10] (docOf H B) := normalizeNL_no13 _ hno13
  have hunf : unfoldCont (List.intercalate [10] (docOf H B)) =
      List.intercalate [10] (docOf H B) := unfoldCont_keep _ hdocne hcond
  have hsplitlf : splitLF (List.intercalate [10] (docOf H B)) = docOf H B :=
    splitLF_joined _ hdocne (fun l hl => (hlok l hl).2.2.1)
  have hlog : logicalLines (List.intercalate [10] (docOf H B)) = docOf H B := by
    unfold logicalLines
    rw [hnorm, hunf, hsplitlf]
    apply List.filter_eq_self.mpr
    intro l hl
    obtain ⟨ht, hne, _, _, _⟩ := hlok l hl
    simp [ht, hne]
  obtain ⟨hH1, hH2, hH3, hH4, hH5, hH6, hH7⟩ :=
    foldl_header_phase H initState rfl rfl (fun l hl => (hH l hl).2)
  obtain ⟨evs, r0, r1, r2, r3, r4⟩ :=
    foldl_blocks B (H.foldl stepCore initState) hH3 (by rw [hH5]; rfl)
      (fun b hb l hl => ((hB b hb).2 l hl).2)
  have hfold : (logicalLines (List.intercalate [10] (docOf H B))).foldl
      (fun st line => stepCore st (trim line)) initState =
      stepCore (((B.map (fun b => BEGINV :: b ++ [ENDV])).flatten).foldl stepCore
        (H.foldl stepCore initState)) ENDCAL := by
    rw [hlog, foldl_trim_eq (docOf H B) initState (fun l hl => (hlok l hl).1)]
    rw [show (docOf H B : List JStr) =
        (H ++ (B.map (fun b => BEGINV :: b ++ [ENDV])).flatten) ++ [ENDCAL] from rfl]
    rw [List.foldl_append, List.foldl_append]
    rfl
  refine ⟨evs, r0, ?_, ?_⟩
  · show ((logicalLines (List.intercalate [10] (docOf H B))).foldl
      (fun st line => stepCore st (trim line)) initState).headerLines = H
    rw [hfold, stepCore_of_endcal, r1, hH1]
    simp [initState]
  · show ((logicalLines (List.intercalate [10] (docOf H B))).foldl
      (fun st line => stepCore st (trim line)) initState).events = evs
    rw [hfold, stepCore_of_endcal, r2, hH2]
    simp [initState]

theorem foldLine_short (l : JStr) (h : l.length ≤ 75) : foldLine l = some l := by
  unfold foldLine foldLineSegs
  rw [if_pos (by simpa [MAX_LINE_LENGTH] using h)]
  simp [intercalate_singleton]

/-- C1 (amended): for a structured input document, header lines followed by
well-formed event blocks and a final END:VCALENDAR, whose lines are all
trimmed, non-blank, break-free, at most 75 units long and free of stray
markers, writing back the parsed calendar with all its events and clean mode
off reproduces every marker and property line exactly, with LF line breaks
replaced by CRLF.  For arbitrary inputs the claim fails: alarm blocks inside
events, lines after the last event and a missing BEGIN:VCALENDAR header are
not reproduced (see the counterexample). -/
theorem C1_roundtrip (H : List JStr) (B : List (List JStr))
    (hHne : H ≠ [])
    (hH : ∀ l ∈ H, lineOK l ∧ l ≠ BEGINV ∧ l ≠ ENDV ∧ l ≠ ENDCAL)
    (hB : ∀ b ∈ B, b ≠ [] ∧ ∀ l ∈ b,
      lineOK l ∧ l ≠ BEGINV ∧ l ≠ ENDV ∧ l ≠ ENDCAL ∧ l ≠ BEGINA ∧ l ≠ ENDA) :
    write (parse (List.intercalate [10] (docOf H B)))
        (parse (List.intercalate [10] (docOf H B))).events false =
      some (List.intercalate [13, 10] (docOf H B) ++ [13, 10]) := by
  obtain ⟨evs, r0, rH, rE⟩ := parse_structured H B hH hB
  have hmapH : H.mapM foldLine = some H := by
    have h2 := mapM_some_of_eq foldLine id H (fun l hl => by
      rw [foldLine_short l (hH l hl).1.2.2.2.2]
      rfl)
    rw [List.map_id] at h2
    exact h2
  have hmapE : evs.mapM (fun ev => (eventOutLines ev false).mapM foldLine) = some B := by
    have hkey : ∀ ev ∈ evs,
        (eventOutLines ev false).mapM foldLine = some ev.rawLines := by
      intro ev hev
      have hrawB : ev.rawLines ∈ B := by
        rw [← r0]
        exact List.mem_map_of_mem Event.rawLines hev
      obtain ⟨hbne, hbl⟩ := hB ev.rawLines hrawB
      have hout : eventOutLines ev false = ev.rawLines := by
        unfold eventOutLines
        rw [if_pos (by simpa [List.length_eq_zero] using hbne)]
        have hf1 : ev.rawLines.filter (fun l => trim l != []) = ev.rawLines :=
          List.filter_eq_self.mpr (fun l hl => by
            obtain ⟨⟨ht, hne, _, _, _⟩, _⟩ := hbl l hl
            simp [ht, hne])
        rw [hf1]
        apply List.filter_eq_self.mpr
        intro l hl
        simp
      rw [hout]
      have h3 := mapM_some_of_eq foldLine id ev.rawLines (fun l hl => by
        rw [foldLine_short l ((hbl l hl).1.2.2.2.2)]
        rfl)
      rw [List.map_id] at h3
      exact h3
    have h4 := mapM_some_of_eq (fun ev => (eventOutLines ev false).mapM foldLine)
      Event.rawLines evs hkey
    rw [r0] at h4
    exact h4
  unfold write
  simp only []
  rw [rH, rE]
  rw [if_pos (by simpa [List.length_eq_zero] using hHne)]
  rw [hmapH, hmapE]
  rfl

def C1wH : List JStr := [ofStr "BEGIN:VCALENDAR", ofStr "VERSION:2.0"]

def C1wB : List (List JStr) := [[ofStr "SUMMARY:A"]]

/-- C1 witness: a concrete two-line header and one single-line event round
trip exactly. -/
theorem C1_roundtrip_witness :
    write (parse (List.intercalate [10] (docOf C1wH C1wB)))
        (parse (List.intercalate [10] (docOf C1wH C1wB))).events false =
      some (List.intercalate [13, 10] (docOf C1wH C1wB) ++ [13, 10]) :=
  C1_roundtrip C1wH C1wB (by decide) (by decide) (by decide)

def C1cx : JStr :=
  ofStr "BEGIN:VEVENT\nBEGIN:VALARM\nTRIGGER:X\nEND:VALARM\nS:2\nEND:VEVENT\nTAIL:3"

def C1cout : JStr :=
  ofStr "BEGIN:VCALENDAR\r\nVERSION:2.0\r\nPRODID:-//iCAL Splitter//EN\r\nBEGIN:VEVENT\r\nS:2\r\nEND:VEVENT\r\nEND:VCALENDAR\r\n"

/-- C1 counterexample: every line of this input is at most 75 units, yet the
write-back of its parse loses the alarm block line TRIGGER:X and the
trailing line TAIL:3, so the round trip does not preserve all property
lines. -/
theorem C1_counterexample :
    (∀ l ∈ logicalLines C1cx, l.length ≤ 75) ∧
    write (parse C1cx) (parse C1cx).events false = some C1cout ∧
    List.IsInfix (ofStr "TRIGGER") C1cx ∧ ¬ List.IsInfix (ofStr "TRIGGER") C1cout := by
  refine ⟨by decide, by decide, by decide, by decide⟩
